import Mathlib

/-!
Verification of the `cbl` language core (scanner, parser, tree-walking
interpreter) against its natural-language specification.

The Rust sources are shallowly embedded:

* `src/token.rs`   → `Object`, `Token`, `TokenType`
* `src/scanner.rs` → `Scanner` and its functions (`scan_tokens`, `scan_token`, …)
* `src/parser.rs`  → `Parser` and its functions (`parse`, `equality`, …)
* `src/interpreter.rs` → `evaluate`, `exectute`, `interpret`, `is_equal`
* `src/error.rs`   → `Error`, `report`, `parser_error`, `error`

Conventions of the embedding:

* Rust `f64` is modelled as `Rat`.  No claim checked here depends on
  floating-point rounding, infinities or NaN; the numeric payload only has to
  distinguish values and support `+`, `-`, `*`, `/`, comparison and equality.
* Rust panics (out-of-bounds indexing, `unwrap` on `None`, slicing a `String`
  at a non-character boundary, `todo!()`) are modelled by the `Except String`
  monad: a `.error msg` outcome is a panic, a `.ok` outcome is a normal
  return.  Code that cannot panic is written as a plain function.
* A Rust `String` is modelled as `List Char` together with its UTF-8 byte
  length, because `scanner.rs` mixes byte indices (`source.len()`, byte range
  slicing) with character indices (`chars().nth(i)`); this mix is modelled
  exactly.
* Side effects (`println!`, `eprintln!`) are modelled by accumulating the
  printed lines in a list carried by the state or returned by the function.
-/

deriving instance DecidableEq for Except

/-- `Object` from `src/token.rs`: the runtime value / literal payload type.
`Number` carries `Rat` in place of Rust `f64`. -/
inductive Object where
  | Nil : Object
  | Bool (b : Bool) : Object
  | Number (n : Rat) : Object
  | String (s : String) : Object
deriving DecidableEq, Repr

/-- `TokenType` from `src/token.rs`: the fixed closed set of token kinds. -/
inductive TokenType where
  | LeftParen | RightParen | LeftBrace | RightBrace
  | Comma | Dot | Minus | Plus | Semicolon | Slash | Star
  | Bang | BangEqual | Equal | EqualEqual
  | Greater | GreaterEqual | Less | LessEqual
  | Identifier | String | Number
  | And | Class | Else | False | Fun | For | If | Nil | Or
  | Print | Return | Super | This | True | Var | While
  | Eof
deriving DecidableEq, Repr

/-- `Token` from `src/token.rs`. -/
structure Token where
  type_ : TokenType
  lexeme : String
  literal : Object
  line : Nat
deriving DecidableEq, Repr

/-- `Token::new` from `src/token.rs`. -/
def Token.new (type_ : TokenType) (lexeme : String) (literal : Object)
    (line : Nat) : Token :=
  ⟨type_, lexeme, literal, line⟩

/-- `Error` from `src/error.rs`. -/
inductive Error where
  | ParserError (msg : String) : Error
  | RuntimeError (msg : String) : Error
deriving DecidableEq, Repr

/-- `CblResult<T>` from `src/error.rs`. -/
abbrev CblResult (α : Type) := Except Error α

/-- Alias for the built-in `String`, needed in signatures elaborated inside
the `TokenType` and `Object` namespaces, where the plain name `String` would
resolve to the homonymous constructor. -/
abbrev Str := String

/-- The Rust `{:?}` (Debug) rendering of a `TokenType`, used inside the
interpreter's runtime-error messages. -/
def TokenType.debugFmt : TokenType → Str
  | .LeftParen => "LeftParen" | .RightParen => "RightParen"
  | .LeftBrace => "LeftBrace" | .RightBrace => "RightBrace"
  | .Comma => "Comma" | .Dot => "Dot" | .Minus => "Minus" | .Plus => "Plus"
  | .Semicolon => "Semicolon" | .Slash => "Slash" | .Star => "Star"
  | .Bang => "Bang" | .BangEqual => "BangEqual" | .Equal => "Equal"
  | .EqualEqual => "EqualEqual" | .Greater => "Greater"
  | .GreaterEqual => "GreaterEqual" | .Less => "Less"
  | .LessEqual => "LessEqual" | .Identifier => "Identifier"
  | .String => "String" | .Number => "Number" | .And => "And"
  | .Class => "Class" | .Else => "Else" | .False => "False" | .Fun => "Fun"
  | .For => "For" | .If => "If" | .Nil => "Nil" | .Or => "Or"
  | .Print => "Print" | .Return => "Return" | .Super => "Super"
  | .This => "This" | .True => "True" | .Var => "Var" | .While => "While"
  | .Eof => "Eof"

/-- `Expr` from `src/ast.rs`: the expression node family. -/
inductive Expr where
  | Binary (left : Expr) (operator : Token) (right : Expr) : Expr
  | Grouping (expression : Expr) : Expr
  | Literal (value : Object) : Expr
  | Unary (operator : Token) (right : Expr) : Expr
deriving DecidableEq, Repr

/-- `Stmt` from `src/ast.rs`.  `src/parser.rs` constructs `Stmt::Var` with an
`Option<Expr>` initializer (`var_declaration`), so the `Var` field is
`Option Expr` here, following the parser, the sole producer of `Stmt`. -/
inductive Stmt where
  | Expression (expression : Expr) : Stmt
  | Print (expression : Expr) : Stmt
  | Var (name : Token) (initializer : Option Expr) : Stmt
deriving DecidableEq, Repr

/-- `impl Display for Object` from `src/token.rs`: the text `println!` emits
for a value.  `Number` is rendered through `Rat`: the claims checked here
never inspect the printed digits of a number, only which values get printed
and in which order. -/
def Object.display : Object → Str
  | .Nil => "nil"
  | .Bool b => if b then "true" else "false"
  | .Number n => toString n
  | .String s => s

/-- `Interpreter::is_equal` from `src/interpreter.rs`. -/
def Interpreter.is_equal (a b : Object) : Bool :=
  match a, b with
  | .Nil, .Nil => true
  | .Number a, .Number b => a == b
  | .String a, .String b => a == b
  | .Bool a, .Bool b => a == b
  | _, _ => false

/-- `Interpreter::evaluate` / `Expr::accept` with the `expr::Visitor<Object>`
implementation of `Interpreter` from `src/interpreter.rs`: the double
dispatch is resolved into a direct match over the node tag (the `Binary`
arm is `visit_binary_expr`, the `Grouping` arm `visit_grouping_expr`, the
`Literal` arm `visit_literal_expr`, the `Unary` arm `visit_unary_expr`). -/
def Interpreter.evaluate : Expr → CblResult Object
  | .Literal value => .ok value
  | .Grouping expression => Interpreter.evaluate expression
  | .Unary operator right => do
    let r ← Interpreter.evaluate right
    match operator.type_ with
    | .Bang =>
      match r with
      | .Bool r => .ok (.Bool (!r))
      | _ => .error (.RuntimeError
          ("Operand must be a bool: " ++ operator.type_.debugFmt))
    | .Minus =>
      match r with
      | .Number r => .ok (.Number (-r))
      | _ => .error (.RuntimeError
          ("Operand must be a number: " ++ operator.type_.debugFmt))
    | _ => .error (.RuntimeError
        ("Unexpected token type: " ++ operator.type_.debugFmt))
  | .Binary left operator right => do
    let l ← Interpreter.evaluate left
    let r ← Interpreter.evaluate right
    match operator.type_ with
    | .Minus =>
      match l, r with
      | .Number l, .Number r => .ok (.Number (l - r))
      | _, _ => .error (.RuntimeError
          ("Expected numbers for Minus operation: " ++ operator.type_.debugFmt))
    | .Slash =>
      match l, r with
      | .Number l, .Number r => .ok (.Number (l / r))
      | _, _ => .error (.RuntimeError
          ("Expected numbers for Slash operation: " ++ operator.type_.debugFmt))
    | .Star =>
      match l, r with
      | .Number l, .Number r => .ok (.Number (l * r))
      | _, _ => .error (.RuntimeError
          ("Expected numbers for Star operation: " ++ operator.type_.debugFmt))
    | .Plus =>
      match l, r with
      | .Number l, .Number r => .ok (.Number (l + r))
      | .String l, .String r => .ok (.String (l ++ r))
      | _, _ => .error (.RuntimeError
          ("Expected numbers or strings for Plus operation: "
            ++ operator.type_.debugFmt))
    | .Greater =>
      match l, r with
      | .Number l, .Number r => .ok (.Bool (decide (l > r)))
      | _, _ => .error (.RuntimeError
          ("Expected numbers for Greater operation: " ++ operator.type_.debugFmt))
    | .GreaterEqual =>
      match l, r with
      | .Number l, .Number r => .ok (.Bool (decide (l ≥ r)))
      | _, _ => .error (.RuntimeError
          ("Expected numbers for GreaterEqual operation: "
            ++ operator.type_.debugFmt))
    | .Less =>
      match l, r with
      | .Number l, .Number r => .ok (.Bool (decide (l < r)))
      | _, _ => .error (.RuntimeError
          ("Expected numbers for Less operation: " ++ operator.type_.debugFmt))
    | .LessEqual =>
      match l, r with
      | .Number l, .Number r => .ok (.Bool (decide (l ≤ r)))
      | _, _ => .error (.RuntimeError
          ("Expected numbers for Less operation: " ++ operator.type_.debugFmt))
    | .BangEqual => .ok (.Bool (!Interpreter.is_equal l r))
    | .EqualEqual => .ok (.Bool (Interpreter.is_equal l r))
    | _ => .error (.RuntimeError
        ("Unexpected token type: " ++ operator.type_.debugFmt))

/-- `Interpreter::exectute` (sic, the source spells it so) together with the
`stmt::Visitor<()>` implementation from `src/interpreter.rs`.  The result is
the list of lines printed by the statement paired with its outcome: `.ok
(.ok ())` a normal return, `.ok (.error e)` a returned `Err(e)`, `.error m` a
panic — `visit_var_stmt` is `todo!()`, a panic with the message Rust gives
`todo!`. -/
def Interpreter.exectute : Stmt → List String × Except String (CblResult Unit)
  | .Expression expression =>
    match Interpreter.evaluate expression with
    | .ok _ => ([], .ok (.ok ()))
    | .error e => ([], .ok (.error e))
  | .Print expression =>
    match Interpreter.evaluate expression with
    | .ok value => ([value.display], .ok (.ok ()))
    | .error e => ([], .ok (.error e))
  | .Var _ _ => ([], .error "not yet implemented")

/-- `Interpreter::interpret` from `src/interpreter.rs`: execute the statements
in order, stopping at the first statement that does not return normally (a
returned `Err` is returned to the caller; a panic unwinds).  The printed
lines accumulate in order. -/
def Interpreter.interpret : List Stmt → List String × Except String (CblResult Unit)
  | [] => ([], .ok (.ok ()))
  | s :: rest =>
    match Interpreter.exectute s with
    | (out, .ok (.ok _)) =>
      let (out2, r2) := Interpreter.interpret rest
      (out ++ out2, r2)
    | (out, .ok (.error e)) => (out, .ok (.error e))
    | (out, .error pmsg) => (out, .error pmsg)

/-- Runtime type tag of an `Object`, used to state that values of differing
runtime type are never equal. -/
def Object.tag : Object → Nat
  | .Nil => 0
  | .Bool _ => 1
  | .Number _ => 2
  | .String _ => 3

/-- C6: equality is total and `!=` is the pointwise negation of `==`: for
every pair of runtime values, a Binary `==` (resp. `!=`) node over them
evaluates without a runtime error; `Nil == Nil` is true; values of differing
runtime type are never equal; `Number`, `String` and `Bool` compare by value
within the same type; and the `!=` result is the logical negation of the
`==` result on the same operand pair. -/
theorem equality_total_and_negation :
    (∀ (l r : Object) (lex : String) (lit : Object) (ln : Nat),
      Interpreter.evaluate
        (Expr.Binary (Expr.Literal l) (Token.new TokenType.EqualEqual lex lit ln)
          (Expr.Literal r))
        = Except.ok (Object.Bool (Interpreter.is_equal l r))
      ∧ Interpreter.evaluate
        (Expr.Binary (Expr.Literal l) (Token.new TokenType.BangEqual lex lit ln)
          (Expr.Literal r))
        = Except.ok (Object.Bool (!Interpreter.is_equal l r)))
    ∧ Interpreter.is_equal Object.Nil Object.Nil = true
    ∧ (∀ l r : Object, l.tag ≠ r.tag → Interpreter.is_equal l r = false)
    ∧ (∀ a b : Rat, Interpreter.is_equal (Object.Number a) (Object.Number b) = (a == b))
    ∧ (∀ a b : String, Interpreter.is_equal (Object.String a) (Object.String b) = (a == b))
    ∧ (∀ a b : Bool, Interpreter.is_equal (Object.Bool a) (Object.Bool b) = (a == b)) := by
  refine ⟨fun l r lex lit ln => ⟨rfl, rfl⟩, rfl, ?_,
    fun a b => rfl, fun a b => rfl, fun a b => rfl⟩
  intro l r h
  cases l <;> cases r <;> first | rfl | (exact absurd rfl h)

/-- C6 witness: concrete instance discharging the differing-type hypothesis
(`1 == "1"` is false). -/
theorem equality_total_and_negation_witness :
    Interpreter.is_equal (Object.Number 1) (Object.String "1") = false :=
  equality_total_and_negation.2.2.1 (Object.Number 1) (Object.String "1") (by decide)

/-- C7: `+` has exactly two overloads and no implicit coercion: two `Number`
operands give the numeric sum, two `String` operands give the left-then-right
concatenation, and every other combination of operand types is a runtime
error naming the `Plus` operation. -/
theorem plus_two_overloads :
    (∀ (a b : Rat) (lex : String) (lit : Object) (ln : Nat),
      Interpreter.evaluate (Expr.Binary (Expr.Literal (Object.Number a))
          (Token.new TokenType.Plus lex lit ln) (Expr.Literal (Object.Number b)))
        = Except.ok (Object.Number (a + b)))
    ∧ (∀ (a b : String) (lex : String) (lit : Object) (ln : Nat),
      Interpreter.evaluate (Expr.Binary (Expr.Literal (Object.String a))
          (Token.new TokenType.Plus lex lit ln) (Expr.Literal (Object.String b)))
        = Except.ok (Object.String (a ++ b)))
    ∧ (∀ (l r : Object) (lex : String) (lit : Object) (ln : Nat),
      (∀ a b : Rat, ¬(l = Object.Number a ∧ r = Object.Number b)) →
      (∀ a b : String, ¬(l = Object.String a ∧ r = Object.String b)) →
      Interpreter.evaluate (Expr.Binary (Expr.Literal l)
          (Token.new TokenType.Plus lex lit ln) (Expr.Literal r))
        = Except.error (Error.RuntimeError
            "Expected numbers or strings for Plus operation: Plus")) := by
  refine ⟨fun a b lex lit ln => rfl, fun a b lex lit ln => rfl, ?_⟩
  intro l r lex lit ln h1 h2
  cases l <;> cases r <;> first
    | rfl
    | (exact absurd ⟨rfl, rfl⟩ (h1 _ _))
    | (exact absurd ⟨rfl, rfl⟩ (h2 _ _))

/-- C7 witness: `1 + "a"` yields the runtime error naming `Plus`, discharging
the not-both-numbers / not-both-strings hypotheses concretely. -/
theorem plus_two_overloads_witness :
    Interpreter.evaluate (Expr.Binary (Expr.Literal (Object.Number 1))
        (Token.new TokenType.Plus "+" Object.Nil 1) (Expr.Literal (Object.String "a")))
      = Except.error (Error.RuntimeError
          "Expected numbers or strings for Plus operation: Plus") :=
  plus_two_overloads.2.2 (Object.Number 1) (Object.String "a") "+" Object.Nil 1
    (by intro a b hab; exact Object.noConfusion hab.2)
    (by intro a b hab; exact Object.noConfusion hab.1)

/-- C8: `interpret` executes the statements in order and the first failing
statement aborts the rest: if every statement succeeds, all are executed in
order (their printed lines concatenate in order) and the result is success;
if some statement fails (a returned runtime error, or the `todo!()` panic of
an unimplemented `Var` statement, modelled as the `.error` outcome), every
statement before it has been executed, its own failure is returned, and no
statement after it is executed. -/
theorem interpret_first_failure :
    (∀ stmts : List Stmt,
      (∀ s ∈ stmts, (Interpreter.exectute s).2 = Except.ok (Except.ok ())) →
      Interpreter.interpret stmts
        = ((stmts.map fun s => (Interpreter.exectute s).1).flatten,
           Except.ok (Except.ok ())))
    ∧ (∀ (pre : List Stmt) (s : Stmt) (post : List Stmt),
      (∀ t ∈ pre, (Interpreter.exectute t).2 = Except.ok (Except.ok ())) →
      (Interpreter.exectute s).2 ≠ Except.ok (Except.ok ()) →
      Interpreter.interpret (pre ++ s :: post)
        = ((pre.map fun t => (Interpreter.exectute t).1).flatten
             ++ (Interpreter.exectute s).1,
           (Interpreter.exectute s).2)) := by
  constructor
  · intro stmts h
    induction stmts with
    | nil => rfl
    | cons s rest ih =>
      have hs : (Interpreter.exectute s).2 = Except.ok (Except.ok ()) :=
        h s (List.mem_cons_self _ _)
      have hrest := ih fun t ht => h t (List.mem_cons_of_mem _ ht)
      rcases hE : Interpreter.exectute s with ⟨out, r⟩
      have hr : r = Except.ok (Except.ok ()) := by rw [hE] at hs; exact hs
      subst hr
      simp [Interpreter.interpret, hE, hrest]
  · intro pre s post
    induction pre with
    | nil =>
      intro _ hfail
      rcases hE : Interpreter.exectute s with ⟨out, r⟩
      rw [hE] at hfail
      rcases r with pmsg | cr
      · simp [Interpreter.interpret, hE]
      · rcases cr with e | u
        · simp [Interpreter.interpret, hE]
        · cases u; exact absurd rfl hfail
    | cons t pre ih =>
      intro h hfail
      have ht : (Interpreter.exectute t).2 = Except.ok (Except.ok ()) :=
        h t (List.mem_cons_self _ _)
      have ih' := ih (fun u hu => h u (List.mem_cons_of_mem _ hu)) hfail
      rcases hE : Interpreter.exectute t with ⟨out, r⟩
      have hr : r = Except.ok (Except.ok ()) := by rw [hE] at ht; exact ht
      subst hr
      simp [Interpreter.interpret, hE, ih']

/-- C8 witness: a three-statement program whose middle statement fails at
runtime prints only the first statement's output and returns the middle
statement's error. -/
theorem interpret_first_failure_witness :
    Interpreter.interpret
      [Stmt.Print (Expr.Literal (Object.String "a")),
       Stmt.Expression (Expr.Binary (Expr.Literal (Object.Number 1))
         (Token.new TokenType.Plus "+" Object.Nil 1) (Expr.Literal (Object.Bool true))),
       Stmt.Print (Expr.Literal (Object.String "b"))]
      = (["a"], Except.ok (Except.error (Error.RuntimeError
          "Expected numbers or strings for Plus operation: Plus"))) := by
  have h := interpret_first_failure.2
    [Stmt.Print (Expr.Literal (Object.String "a"))]
    (Stmt.Expression (Expr.Binary (Expr.Literal (Object.Number 1))
      (Token.new TokenType.Plus "+" Object.Nil 1) (Expr.Literal (Object.Bool true))))
    [Stmt.Print (Expr.Literal (Object.String "b"))]
    (fun t ht => by rw [List.mem_singleton.mp ht]; exact rfl)
    (by
      intro hc
      rw [show (Interpreter.exectute (Stmt.Expression (Expr.Binary
            (Expr.Literal (Object.Number 1))
            (Token.new TokenType.Plus "+" Object.Nil 1)
            (Expr.Literal (Object.Bool true))))).2
          = Except.ok (Except.error (Error.RuntimeError
              "Expected numbers or strings for Plus operation: Plus")) from rfl] at hc
      exact Except.noConfusion (Except.ok.inj hc))
  simpa using h

/-- `report` from `src/error.rs`: the diagnostic line written to stderr is
`format!("[line {}] Error {}: {}", line, where_, message)` — note the space
between `Error` and `{}` in the format string. -/
def report (line : Nat) (where_ : String) (message : String) : String :=
  "[line " ++ toString line ++ "] Error " ++ where_ ++ ": " ++ message

/-- `error` from `src/error.rs`. -/
def error (line : Nat) (message : String) : String :=
  report line "" message

/-- `parser_error` from `src/error.rs` (the free reporting function that
formats and prints a parse diagnostic for a token). -/
def parser_error (token : Token) (message : String) : String :=
  if token.type_ = TokenType.Eof then
    report token.line " at end" message
  else
    report token.line (" at \x27" ++ token.lexeme ++ "\x27") message

/-- The diagnostic shape the specification claims, written from the spec's
words for comparison with `report`: `[line <n>] Error<location>: <message>`,
with no additional characters between `Error` and the location. -/
def specClaimedDiag (line : Nat) (location : String) (message : String) : String :=
  "[line " ++ toString line ++ "] Error" ++ location ++ ": " ++ message

/-- C9 counterexample: the code's reporting functions put a space after
`Error` that the claimed shape forbids, so a diagnostic with empty location
is `[line 1] Error : m` (space before the colon), not `[line 1] Error: m`,
and an at-end diagnostic has two spaces before `at end`. -/
theorem report_shape_counterexample :
    error 1 "m" = "[line 1] Error : m"
    ∧ error 1 "m" ≠ specClaimedDiag 1 "" "m"
    ∧ parser_error (Token.new TokenType.Eof "" Object.Nil 1) "m"
        = "[line 1] Error  at end: m"
    ∧ parser_error (Token.new TokenType.Eof "" Object.Nil 1) "m"
        ≠ specClaimedDiag 1 " at end" "m" := by
  refine ⟨by decide, by decide, by decide, by decide⟩

/-- C9 (amended): every diagnostic emitted through the reporting functions
is a single line of the form `[line <n>] Error <location>: <message>` — one
space after `Error` that the spec's template omits — where the location is
empty (for `error`/`report` with empty location), `at end` for an error at
the Eof token, or `at '<lexeme>'` for an error at any other token. -/
theorem report_shape_amended :
    (∀ (ln : Nat) (where_ msg : String),
      report ln where_ msg = specClaimedDiag ln (" " ++ where_) msg)
    ∧ (∀ (ln : Nat) (msg : String),
      error ln msg = specClaimedDiag ln " " msg)
    ∧ (∀ (t : Token) (msg : String), t.type_ = TokenType.Eof →
      parser_error t msg = specClaimedDiag t.line ("  at end") msg)
    ∧ (∀ (t : Token) (msg : String), t.type_ ≠ TokenType.Eof →
      parser_error t msg
        = specClaimedDiag t.line ("  at \x27" ++ t.lexeme ++ "\x27") msg) := by
  have key : ∀ (ln : Nat) (w msg : String),
      report ln w msg = specClaimedDiag ln (" " ++ w) msg := by
    intro ln w msg
    simp only [report, specClaimedDiag, String.append_assoc]
    rw [← String.append_assoc "] Error" " ",
      show ("] Error" ++ " " : String) = "] Error " from by decide]
  refine ⟨key, ?_, ?_, ?_⟩
  · intro ln msg
    have h := key ln "" msg
    simpa using h
  · intro t msg ht
    rw [parser_error, if_pos ht, key]
    rfl
  · intro t msg ht
    rw [parser_error, if_neg ht, key]
    simp only [String.append_assoc]
    rw [← String.append_assoc " " " at \x27",
      show (" " ++ " at \x27" : String) = "  at \x27" from by decide]

/-- C9 amended-claim witness: a concrete non-Eof token, discharging the
hypothesis of the at-lexeme case. -/
theorem report_shape_amended_witness :
    parser_error (Token.new TokenType.Semicolon ";" Object.Nil 3) "m"
      = specClaimedDiag 3 ("  at \x27" ++ (Token.new TokenType.Semicolon ";" Object.Nil 3).lexeme ++ "\x27") "m" :=
  report_shape_amended.2.2.2 (Token.new TokenType.Semicolon ";" Object.Nil 3) "m"
    (by decide)

/-- `Parser` from `src/parser.rs`. -/
structure Parser where
  tokens : List Token
  current : Nat
deriving Repr

/-- `Parser::new`. -/
def Parser.new (tokens : List Token) : Parser :=
  ⟨tokens, 0⟩

/-- `Parser::peek`: `self.tokens[self.current].clone()` — Rust indexing
panics when out of bounds, hence the `Except`. -/
def Parser.peek (p : Parser) : Except String Token :=
  match p.tokens.get? p.current with
  | some t => .ok t
  | none => .error "index out of bounds"

/-- `Parser::previous`: `self.tokens[self.current - 1].clone()` — the usize
subtraction `0 - 1` and an out-of-bounds index both panic. -/
def Parser.previous (p : Parser) : Except String Token :=
  if p.current = 0 then .error "attempt to subtract with overflow"
  else
    match p.tokens.get? (p.current - 1) with
    | some t => .ok t
    | none => .error "index out of bounds"

/-- `Parser::is_at_end`. -/
def Parser.is_at_end (p : Parser) : Except String Bool := do
  let t ← p.peek
  pure (t.type_ == TokenType.Eof)

/-- `Parser::check`. -/
def Parser.check (p : Parser) (type_ : TokenType) : Except String Bool := do
  if (← p.is_at_end) then pure false
  else do
    let t ← p.peek
    pure (t.type_ == type_)

/-- `Parser::advance`. -/
def Parser.advance (p : Parser) : Except String (Token × Parser) := do
  let e ← p.is_at_end
  let p := if e then p else { p with current := p.current + 1 }
  let t ← p.previous
  pure (t, p)

/-- `Parser::match_token`: try each kind in order; on the first that checks,
advance and report a match. -/
def Parser.match_token (p : Parser) (types : List TokenType) :
    Except String (Bool × Parser) :=
  match types with
  | [] => pure (false, p)
  | type_ :: rest => do
    if (← p.check type_) then do
      let (_, p) ← p.advance
      pure (true, p)
    else p.match_token rest

/-- `Parser::consume`: advance past a token of the expected kind, or return
(not raise) `Err(Error::parser_error(message))`. -/
def Parser.consume (p : Parser) (type_ : TokenType) (message : String) :
    Except String (CblResult Token × Parser) := do
  if (← p.check type_) then do
    let (t, p) ← p.advance
    pure (.ok t, p)
  else pure (.error (Error.ParserError message), p)

mutual

/-- `Parser::expression` from `src/parser.rs`.  The `fuel` argument bounds
the recursion depth, standing for the Rust call stack (which is likewise
finite); every claim below is settled at a concrete token list, where the
fuel supplied by `Parser.parse` is ample. -/
def Parser.expression (fuel : Nat) (p : Parser) :
    Except String (CblResult Expr × Parser) :=
  match fuel with
  | 0 => .error "stack overflow"
  | fuel + 1 => Parser.equality fuel p

/-- `Parser::equality`. -/
def Parser.equality (fuel : Nat) (p : Parser) :
    Except String (CblResult Expr × Parser) :=
  match fuel with
  | 0 => .error "stack overflow"
  | fuel + 1 => do
    match ← Parser.comparison fuel p with
    | (.error e, p) => pure (.error e, p)
    | (.ok expr, p) => Parser.equalityLoop fuel expr p

/-- The `while` loop of `Parser::equality`. -/
def Parser.equalityLoop (fuel : Nat) (expr : Expr) (p : Parser) :
    Except String (CblResult Expr × Parser) :=
  match fuel with
  | 0 => .error "stack overflow"
  | fuel + 1 => do
    let (m, p) ← p.match_token [TokenType.BangEqual, TokenType.EqualEqual]
    if m then do
      let operator ← p.previous
      match ← Parser.comparison fuel p with
      | (.error e, p) => pure (.error e, p)
      | (.ok right, p) =>
        Parser.equalityLoop fuel (Expr.Binary expr operator right) p
    else pure (.ok expr, p)

/-- `Parser::comparison`. -/
def Parser.comparison (fuel : Nat) (p : Parser) :
    Except String (CblResult Expr × Parser) :=
  match fuel with
  | 0 => .error "stack overflow"
  | fuel + 1 => do
    match ← Parser.term fuel p with
    | (.error e, p) => pure (.error e, p)
    | (.ok expr, p) => Parser.comparisonLoop fuel expr p

/-- The `while` loop of `Parser::comparison`. -/
def Parser.comparisonLoop (fuel : Nat) (expr : Expr) (p : Parser) :
    Except String (CblResult Expr × Parser) :=
  match fuel with
  | 0 => .error "stack overflow"
  | fuel + 1 => do
    let (m, p) ← p.match_token [TokenType.Greater, TokenType.GreaterEqual,
      TokenType.Less, TokenType.LessEqual]
    if m then do
      let operator ← p.previous
      match ← Parser.term fuel p with
      | (.error e, p) => pure (.error e, p)
      | (.ok right, p) =>
        Parser.comparisonLoop fuel (Expr.Binary expr operator right) p
    else pure (.ok expr, p)

/-- `Parser::term`. -/
def Parser.term (fuel : Nat) (p : Parser) :
    Except String (CblResult Expr × Parser) :=
  match fuel with
  | 0 => .error "stack overflow"
  | fuel + 1 => do
    match ← Parser.factor fuel p with
    | (.error e, p) => pure (.error e, p)
    | (.ok expr, p) => Parser.termLoop fuel expr p

/-- The `while` loop of `Parser::term`. -/
def Parser.termLoop (fuel : Nat) (expr : Expr) (p : Parser) :
    Except String (CblResult Expr × Parser) :=
  match fuel with
  | 0 => .error "stack overflow"
  | fuel + 1 => do
    let (m, p) ← p.match_token [TokenType.Minus, TokenType.Plus]
    if m then do
      let operator ← p.previous
      match ← Parser.factor fuel p with
      | (.error e, p) => pure (.error e, p)
      | (.ok right, p) =>
        Parser.termLoop fuel (Expr.Binary expr operator right) p
    else pure (.ok expr, p)

/-- `Parser::factor`. -/
def Parser.factor (fuel : Nat) (p : Parser) :
    Except String (CblResult Expr × Parser) :=
  match fuel with
  | 0 => .error "stack overflow"
  | fuel + 1 => do
    match ← Parser.unary fuel p with
    | (.error e, p) => pure (.error e, p)
    | (.ok expr, p) => Parser.factorLoop fuel expr p

/-- The `while` loop of `Parser::factor`. -/
def Parser.factorLoop (fuel : Nat) (expr : Expr) (p : Parser) :
    Except String (CblResult Expr × Parser) :=
  match fuel with
  | 0 => .error "stack overflow"
  | fuel + 1 => do
    let (m, p) ← p.match_token [TokenType.Slash, TokenType.Star]
    if m then do
      let operator ← p.previous
      match ← Parser.unary fuel p with
      | (.error e, p) => pure (.error e, p)
      | (.ok right, p) =>
        Parser.factorLoop fuel (Expr.Binary expr operator right) p
    else pure (.ok expr, p)

/-- `Parser::unary`. -/
def Parser.unary (fuel : Nat) (p : Parser) :
    Except String (CblResult Expr × Parser) :=
  match fuel with
  | 0 => .error "stack overflow"
  | fuel + 1 => do
    let (m, p) ← p.match_token [TokenType.Bang, TokenType.Minus]
    if m then do
      let operator ← p.previous
      match ← Parser.unary fuel p with
      | (.error e, p) => pure (.error e, p)
      | (.ok right, p) => pure (.ok (Expr.Unary operator right), p)
    else Parser.primary fuel p

/-- `Parser::primary`. -/
def Parser.primary (fuel : Nat) (p : Parser) :
    Except String (CblResult Expr × Parser) :=
  match fuel with
  | 0 => .error "stack overflow"
  | fuel + 1 => do
    let (m, p) ← p.match_token [TokenType.False]
    if m then pure (.ok (Expr.Literal (Object.Bool false)), p)
    else do
      let (m, p) ← p.match_token [TokenType.True]
      if m then pure (.ok (Expr.Literal (Object.Bool true)), p)
      else do
        let (m, p) ← p.match_token [TokenType.Nil]
        if m then pure (.ok (Expr.Literal Object.Nil), p)
        else do
          let (m, p) ← p.match_token [TokenType.Number, TokenType.String]
          if m then do
            let t ← p.previous
            pure (.ok (Expr.Literal t.literal), p)
          else do
            let (m, p) ← p.match_token [TokenType.LeftParen]
            if m then do
              match ← Parser.expression fuel p with
              | (.error e, p) => pure (.error e, p)
              | (.ok expr, p) => do
                match ← p.consume TokenType.RightParen
                    "Expect \x27)\x27 after expression." with
                | (.error e, p) => pure (.error e, p)
                | (.ok _, p) => pure (.ok (Expr.Grouping expr), p)
            else pure (.error (Error.ParserError "Expect expression."), p)

end

/-- `Parser::print_statement`: note that the result of
`consume(Semicolon, "Expect ';' after value.")` is discarded — the source
ignores the returned `Result`, so a missing semicolon raises no error. -/
def Parser.print_statement (fuel : Nat) (p : Parser) :
    Except String (CblResult Stmt × Parser) := do
  match ← Parser.expression fuel p with
  | (.error e, p) => pure (.error e, p)
  | (.ok value, p) => do
    let (_, p) ← p.consume TokenType.Semicolon "Expect \x27;\x27 after value."
    pure (.ok (Stmt.Print value), p)

/-- `Parser::var_declaration`: the identifier consume's error propagates, an
initializer error propagates, but the final semicolon consume's result is
discarded exactly as in the source. -/
def Parser.var_declaration (fuel : Nat) (p : Parser) :
    Except String (CblResult Stmt × Parser) := do
  match ← p.consume TokenType.Identifier "Expect variable name." with
  | (.error e, p) => pure (.error e, p)
  | (.ok name, p) => do
    let (m, p) ← p.match_token [TokenType.Equal]
    match ← (if m then do
        match ← Parser.expression fuel p with
        | (.ok expr, p) => pure ((.ok (some expr) : CblResult (Option Expr)), p)
        | (.error e, p) => pure (.error e, p)
      else pure (.ok none, p)) with
    | (.error e, p) => pure ((.error e : CblResult Stmt), p)
    | (.ok initializer, p) => do
      let (_, p) ← p.consume TokenType.Semicolon
        "Expect \x27;\x27 after variable declaration."
      pure (.ok (Stmt.Var name initializer), p)

/-- `Parser::expression_statement`: the semicolon consume's result is
discarded exactly as in the source. -/
def Parser.expression_statement (fuel : Nat) (p : Parser) :
    Except String (CblResult Stmt × Parser) := do
  match ← Parser.expression fuel p with
  | (.error e, p) => pure (.error e, p)
  | (.ok expr, p) => do
    let (_, p) ← p.consume TokenType.Semicolon "Expect \x27;\x27 after expression."
    pure (.ok (Stmt.Expression expr), p)

/-- `Parser::statement`. -/
def Parser.statement (fuel : Nat) (p : Parser) :
    Except String (CblResult Stmt × Parser) := do
  let (m, p) ← p.match_token [TokenType.Print]
  if m then Parser.print_statement fuel p
  else Parser.expression_statement fuel p

/-- `Parser::declaration`. -/
def Parser.declaration (fuel : Nat) (p : Parser) :
    Except String (CblResult Stmt × Parser) := do
  let (m, p) ← p.match_token [TokenType.Var]
  if m then Parser.var_declaration fuel p
  else Parser.statement fuel p

/-- The `while` loop of `Parser::synchronize`.  Each iteration advances the
cursor, so `tokens.length + 1` fuel can never run out before the loop exits
or the cursor leaves the token list (which is an indexing panic, as in
Rust). -/
def Parser.syncLoop : Nat → Parser → Except String Parser
  | 0, _ => .error "stack overflow"
  | fuel + 1, p => do
    if !(← p.is_at_end) then do
      let prev ← p.previous
      if prev.type_ == TokenType.Semicolon then pure p
      else do
        let t ← p.peek
        match t.type_ with
        | TokenType.Class | TokenType.Fun | TokenType.Var | TokenType.For
        | TokenType.If | TokenType.While | TokenType.Print
        | TokenType.Return => pure p
        | _ => do
          let (_, p) ← p.advance
          Parser.syncLoop fuel p
    else pure p

/-- `Parser::synchronize`: discard tokens until a statement boundary. -/
def Parser.synchronize (p : Parser) : Except String Parser := do
  let (_, p) ← p.advance
  Parser.syncLoop (p.tokens.length + 1) p

/-- Recursion fuel ample for one `declaration` call: the grammar has seven
precedence levels, and every loop iteration and every re-entry into
`expression` first consumes at least one token. -/
def Parser.exprFuel (p : Parser) : Nat :=
  8 * (p.tokens.length + 1) + 8

/-- The `while` loop of `Parser::parse`: on `Ok` push the statement, on
`Err` drop it and synchronize.  Each iteration either consumes a token or
terminates, so `tokens.length + 1` fuel is ample. -/
def Parser.parseLoop : Nat → Parser → List Stmt → Except String (List Stmt × Parser)
  | 0, _, _ => .error "stack overflow"
  | fuel + 1, p, statements => do
    if !(← p.is_at_end) then do
      match ← Parser.declaration (Parser.exprFuel p) p with
      | (.ok d, p) => Parser.parseLoop fuel p (statements ++ [d])
      | (.error _, p) => do
        let p ← p.synchronize
        Parser.parseLoop fuel p statements
    else pure (statements, p)

/-- `Parser::parse`: run the statement loop and wrap the recovered
statements in `Ok` — the source's `parse` always returns `Ok(statements)`,
whatever errors the statements produced internally. -/
def Parser.parse (p : Parser) : Except String (CblResult (List Stmt)) := do
  let (statements, _) ← Parser.parseLoop (p.tokens.length + 1) p []
  pure (.ok statements)

/-- C1 (behavior of the code at the failing input): for the token sequence
of `print 1` with no terminating semicolon, `parse` silently accepts the
statement — it returns `Ok` of the successful `Print` statement and no parse
error, because `print_statement` discards the `Err` that
`consume(Semicolon, …)` returns. -/
theorem print_missing_semicolon_accepted :
    Parser.parse (Parser.new
      [Token.new TokenType.Print "print" Object.Nil 1,
       Token.new TokenType.Number "1" (Object.Number 1) 1,
       Token.new TokenType.Eof "" Object.Nil 1])
      = Except.ok (Except.ok [Stmt.Print (Expr.Literal (Object.Number 1))]) :=
  rfl

/-- C5: panic-mode recovery bounds a parse error to one statement: parsing
the token sequence of `var ;` followed by `print 1;` drops the malformed
declaration, synchronizes, and still returns the `Print` statement for
`print 1;`. -/
theorem recovery_keeps_print_statement :
    Parser.parse (Parser.new
      [Token.new TokenType.Var "var" Object.Nil 1,
       Token.new TokenType.Semicolon ";" Object.Nil 1,
       Token.new TokenType.Print "print" Object.Nil 2,
       Token.new TokenType.Number "1" (Object.Number 1) 2,
       Token.new TokenType.Semicolon ";" Object.Nil 2,
       Token.new TokenType.Eof "" Object.Nil 2])
      = Except.ok (Except.ok [Stmt.Print (Expr.Literal (Object.Number 1))]) :=
  rfl

/-- UTF-8 byte length of a character sequence — Rust `String::len` on the
source. -/
def byteLen (l : List Char) : Nat :=
  (l.map Char.utf8Size).sum

/-- Map a byte offset into a UTF-8 string to a character index: `some i`
when the offset is the boundary before the `i`-th character (or the very
end), `none` when it falls inside one character's bytes or past the end. -/
def charBoundary : List Char → Nat → Option Nat
  | _, 0 => some 0
  | [], _ + 1 => none
  | c :: cs, n + 1 =>
    if c.utf8Size ≤ n + 1 then (charBoundary cs (n + 1 - c.utf8Size)).map (· + 1)
    else none

/-- Rust `&s[a..b]` on a `String`: the characters between byte offsets `a`
and `b`, provided `a ≤ b` and both are character boundaries; every other
case is an indexing panic (`none`). -/
def sliceBytes (l : List Char) (a b : Nat) : Option (List Char) := do
  let i ← charBoundary l a
  let j ← charBoundary l b
  if a ≤ b then pure ((l.take j).drop i) else none

/-- `Scanner` from `src/scanner.rs`.  `source` holds the characters of the
UTF-8 source string; `diags` accumulates the lines the scanner prints for
malformed input. -/
structure Scanner where
  source : List Char
  tokens : List Token
  start : Nat
  current : Nat
  line : Nat
  diags : List String
deriving Repr

/-- `Scanner::new`. -/
def Scanner.new (source : String) : Scanner :=
  ⟨source.data, [], 0, 0, 1, []⟩

/-- `Scanner::is_at_end`: `current >= self.source.len()` — a BYTE length,
while `current` advances once per CHARACTER; the two agree only on ASCII. -/
def Scanner.is_at_end (s : Scanner) (current : Nat) : Bool :=
  decide (byteLen s.source ≤ current)

/-- `Scanner::advance`: increment the cursor and return
`source.chars().nth(current - 1)` — a CHARACTER index. -/
def Scanner.advance (s : Scanner) : Scanner × Option Char :=
  ({ s with current := s.current + 1 }, s.source.get? s.current)

/-- `Scanner::add_token_literal`: byte-slice `source[start..current]` for
the lexeme (a panic when either cursor is not a character boundary) and
push the token, stamped with the current line. -/
def Scanner.add_token_literal (s : Scanner) (type_ : TokenType)
    (literal : Object) : Except String Scanner :=
  match sliceBytes s.source s.start s.current with
  | none => .error "byte index is not a char boundary"
  | some text =>
    .ok { s with tokens :=
      s.tokens ++ [Token.new type_ (String.mk text) literal s.line] }

/-- `Scanner::add_token`. -/
def Scanner.add_token (s : Scanner) (type_ : TokenType) : Except String Scanner :=
  s.add_token_literal type_ Object.Nil

/-- `Scanner::match_char`.  Note the source's fall-through: when
`chars().nth(current)` is `None` (cursor past the characters but not past
the bytes) the `if let` does not fire, so the function still advances and
reports a match. -/
def Scanner.match_char (s : Scanner) (expected : Char) : Scanner × Bool :=
  if s.is_at_end s.current then (s, false)
  else
    match s.source.get? s.current with
    | some c =>
      if c ≠ expected then (s, false)
      else ({ s with current := s.current + 1 }, true)
    | none => ({ s with current := s.current + 1 }, true)

/-- `Scanner::peek`: `'\0'` at the byte end, otherwise
`chars().nth(current).unwrap()` — the unwrap panics whenever the byte
length exceeds the character count because of earlier multi-byte
characters. -/
def Scanner.peek (s : Scanner) : Except String Char :=
  if s.is_at_end s.current then .ok '\x00'
  else
    match s.source.get? s.current with
    | some c => .ok c
    | none => .error "unwrap on None"

/-- `Scanner::peek_next`. -/
def Scanner.peek_next (s : Scanner) : Except String Char :=
  if byteLen s.source ≤ s.current + 1 then .ok '\x00'
  else
    match s.source.get? (s.current + 1) with
    | some c => .ok c
    | none => .error "unwrap on None"

/-- `Scanner::is_digit`. -/
def Scanner.is_digit (c : Char) : Bool :=
  '0' ≤ c && c ≤ '9'

/-- `Scanner::is_alpha`. -/
def Scanner.is_alpha (c : Char) : Bool :=
  ('a' ≤ c && c ≤ 'z') || ('A' ≤ c && c ≤ 'Z') || c = '_'

/-- `Scanner::is_alpha_numeric` (unused by `scan_token`, kept for
completeness of the embedding). -/
def Scanner.is_alpha_numeric (c : Char) : Bool :=
  Scanner.is_alpha c || Scanner.is_digit c

/-- A successful `peek` of anything but `'\0'` means the cursor is strictly
inside the byte range (used for the loops' termination). -/
lemma Scanner.peek_ok_lt {s : Scanner} {c : Char} (h : s.peek = .ok c)
    (hc : c ≠ '\x00') : s.current < byteLen s.source := by
  by_contra hle
  rw [Scanner.peek] at h
  rw [if_pos] at h
  · exact hc (Except.ok.inj h).symm
  · simp [Scanner.is_at_end]
    omega

/-- The `while` loop of `Scanner::string`: consume characters, counting
embedded newlines in `line`, until the closing quote or the end of the
source.  `fuel` bounds the iterations for structural recursion; every call
site passes the source's byte length, which the loop can never use up
because each iteration both requires the cursor to be below that length and
advances it. -/
def Scanner.stringLoop : Nat → Scanner → Except String Scanner
  | fuel, s =>
    match s.peek with
    | .error e => .error e
    | .ok c =>
      if c ≠ '"' ∧ ¬(s.is_at_end s.current = true) then
        match fuel with
        | 0 => .error "loop fuel exhausted"
        | fuel + 1 =>
          Scanner.stringLoop fuel
            (((if c = '\n' then { s with line := s.line + 1 } else s)).advance).1
      else .ok s

/-- The comment loop of `Scanner::scan_token` (after `//`): consume to the
end of the line or the end of the source.  `fuel` as in `stringLoop`. -/
def Scanner.commentLoop : Nat → Scanner → Except String Scanner
  | fuel, s =>
    match s.peek with
    | .error e => .error e
    | .ok c =>
      if c ≠ '\n' ∧ ¬(s.is_at_end s.current = true) then
        match fuel with
        | 0 => .error "loop fuel exhausted"
        | fuel + 1 => Scanner.commentLoop fuel ((s.advance).1)
      else .ok s

/-- The digit-consuming loop of `Scanner::number`
(`while self.is_digit(self.peek())`, written twice in the source: once for
the integer part, once for the fractional part).  `fuel` as in
`stringLoop`: a digit `peek` means the cursor is below the byte length. -/
def Scanner.digitLoop : Nat → Scanner → Except String Scanner
  | fuel, s =>
    match s.peek with
    | .error e => .error e
    | .ok c =>
      if Scanner.is_digit c then
        match fuel with
        | 0 => .error "loop fuel exhausted"
        | fuel + 1 => Scanner.digitLoop fuel ((s.advance).1)
      else .ok s

/-- The identifier loop of `Scanner::identifier`
(`while self.is_alpha(self.peek()) || self.is_digit(self.peek())`).  `fuel`
as in `stringLoop`. -/
def Scanner.identLoop : Nat → Scanner → Except String Scanner
  | fuel, s =>
    match s.peek with
    | .error e => .error e
    | .ok c =>
      if Scanner.is_alpha c || Scanner.is_digit c then
        match fuel with
        | 0 => .error "loop fuel exhausted"
        | fuel + 1 => Scanner.identLoop fuel ((s.advance).1)
      else .ok s

/-- `Scanner::string`: after the loop, an unterminated string prints a
diagnostic and produces no token; otherwise the closing quote is consumed
and the value between the quotes is byte-sliced out. -/
def Scanner.string (s : Scanner) : Except String Scanner := do
  let s ← Scanner.stringLoop (byteLen s.source) s
  if s.is_at_end s.current then
    pure { s with diags := s.diags ++ ["Unterminated string"] }
  else do
    let s := (s.advance).1
    match sliceBytes s.source (s.start + 1) (s.current - 1) with
    | none => .error "byte index is not a char boundary"
    | some value =>
      s.add_token_literal TokenType.String (Object.String (String.mk value))

/-- Numeric value of a digit string. -/
def digitsVal (l : List Char) : Rat :=
  l.foldl (fun a c => 10 * a + ((c.toNat - Char.toNat '0' : Nat) : Rat)) 0

/-- Rust `str::parse::<f64>` as `Scanner::number` exercises it, modelled on
the digit shapes `D+` and `D+.D+` that the scanner's cursor arithmetic
carves out (the value as an exact rational in place of the nearest `f64`);
any other text fails to parse, which `number`'s `unwrap` turns into a
panic. -/
def parseF64 (text : List Char) : Option Rat :=
  let intPart := text.takeWhile Scanner.is_digit
  if intPart = [] then none
  else
    match text.dropWhile Scanner.is_digit with
    | [] => some (digitsVal intPart)
    | '.' :: frac =>
      if frac ≠ [] ∧ frac.all Scanner.is_digit then
        some (digitsVal intPart + digitsVal frac / (10 : Rat) ^ frac.length)
      else none
    | _ => none

/-- `Scanner::number`: consume the integer digits, optionally a `.` followed
by fractional digits, then parse the byte-sliced text. -/
def Scanner.number (s : Scanner) : Except String Scanner := do
  let s ← Scanner.digitLoop (byteLen s.source) s
  let c ← s.peek
  let s ← (if c = '.' then do
      let c2 ← s.peek_next
      if Scanner.is_digit c2 then do
        let s := (s.advance).1
        Scanner.digitLoop (byteLen s.source) s
      else pure s
    else pure s)
  match sliceBytes s.source s.start s.current with
  | none => .error "byte index is not a char boundary"
  | some text =>
    match parseF64 text with
    | none => .error "unwrap on Err"
    | some value => s.add_token_literal TokenType.Number (Object.Number value)

/-- The keyword table of `Scanner::identifier`. -/
def keywordKind (text : String) : TokenType :=
  if text = "and" then .And
  else if text = "class" then .Class
  else if text = "else" then .Else
  else if text = "false" then .False
  else if text = "for" then .For
  else if text = "fun" then .Fun
  else if text = "if" then .If
  else if text = "nil" then .Nil
  else if text = "or" then .Or
  else if text = "print" then .Print
  else if text = "return" then .Return
  else if text = "super" then .Super
  else if text = "this" then .This
  else if text = "true" then .True
  else if text = "var" then .Var
  else if text = "while" then .While
  else .Identifier

/-- `Scanner::identifier`: consume the identifier characters, byte-slice the
lexeme and classify it through the keyword table. -/
def Scanner.identifier (s : Scanner) : Except String Scanner := do
  let s ← Scanner.identLoop (byteLen s.source) s
  match sliceBytes s.source s.start s.current with
  | none => .error "byte index is not a char boundary"
  | some text => s.add_token (keywordKind (String.mk text))

/-- `Scanner::scan_token`: read one character and dispatch.  Whitespace —
including `'\n'` — falls into the arm that does nothing at all: the line
counter is NOT incremented for a newline here (only `string` touches it). -/
def Scanner.scan_token (s : Scanner) : Except String Scanner :=
  match s.advance with
  | (s, none) => .ok s
  | (s, some c) =>
    match c with
    | '(' => s.add_token TokenType.LeftParen
    | ')' => s.add_token TokenType.RightParen
    | '{' => s.add_token TokenType.LeftBrace
    | '}' => s.add_token TokenType.RightBrace
    | ',' => s.add_token TokenType.Comma
    | '.' => s.add_token TokenType.Dot
    | '-' => s.add_token TokenType.Minus
    | '+' => s.add_token TokenType.Plus
    | ';' => s.add_token TokenType.Semicolon
    | '*' => s.add_token TokenType.Star
    | '!' =>
      let (s, m) := s.match_char '='
      s.add_token (if m then TokenType.BangEqual else TokenType.Bang)
    | '=' =>
      let (s, m) := s.match_char '='
      s.add_token (if m then TokenType.EqualEqual else TokenType.Equal)
    | '<' =>
      let (s, m) := s.match_char '='
      s.add_token (if m then TokenType.LessEqual else TokenType.Less)
    | '>' =>
      let (s, m) := s.match_char '='
      s.add_token (if m then TokenType.GreaterEqual else TokenType.Greater)
    | '/' =>
      let (s, m) := s.match_char '/'
      if m then Scanner.commentLoop (byteLen s.source) s
      else s.add_token TokenType.Slash
    | ' ' | '\x0d' | '\t' | '\n' => .ok s
    | '"' => s.string
    | c =>
      if Scanner.is_digit c then s.number
      else if Scanner.is_alpha c then s.identifier
      else .ok { s with diags := s.diags ++
        ["Unexpected character: ".push c, "char value " ++ toString c.toNat] }

/-- A successful `peek` of anything but `'\0'` reads the character at the
cursor. -/
lemma Scanner.peek_ok_get {s : Scanner} {c : Char} (h : s.peek = .ok c)
    (hc : c ≠ '\x00') : s.source.get? s.current = some c := by
  rw [Scanner.peek] at h
  split at h
  · exact absurd (Except.ok.inj h).symm hc
  · split at h
    · rename_i heq
      rw [heq]
      exact congrArg some (Except.ok.inj h)
    · exact Except.noConfusion h

/-- `match_char` only moves the cursor (at most one step forward); every
other field is untouched. -/
lemma Scanner.match_char_spec (s : Scanner) (expected : Char) :
    (s.match_char expected).1.source = s.source ∧
    (s.match_char expected).1.tokens = s.tokens ∧
    (s.match_char expected).1.start = s.start ∧
    (s.match_char expected).1.line = s.line ∧
    (s.match_char expected).1.diags = s.diags ∧
    s.current ≤ (s.match_char expected).1.current ∧
    (s.match_char expected).1.current ≤ s.current + 1 := by
  rw [Scanner.match_char]
  split
  · exact ⟨rfl, rfl, rfl, rfl, rfl, Nat.le_refl _, Nat.le_succ _⟩
  · split
    · split
      · exact ⟨rfl, rfl, rfl, rfl, rfl, Nat.le_refl _, Nat.le_succ _⟩
      · exact ⟨rfl, rfl, rfl, rfl, rfl, Nat.le_succ _, Nat.le_refl _⟩
    · exact ⟨rfl, rfl, rfl, rfl, rfl, Nat.le_succ _, Nat.le_refl _⟩

/-- `add_token_literal` appends exactly one token, stamped with the current
line, and moves nothing. -/
lemma Scanner.add_token_literal_spec {s s' : Scanner} {type_ : TokenType}
    {literal : Object} (h : s.add_token_literal type_ literal = .ok s') :
    s'.source = s.source ∧ s'.start = s.start ∧ s'.current = s.current ∧
    s'.line = s.line ∧ s'.diags = s.diags ∧
    ∃ text, s'.tokens = s.tokens ++ [Token.new type_ (String.mk text) literal s.line] := by
  rw [Scanner.add_token_literal] at h
  split at h
  · exact Except.noConfusion h
  · cases h
    exact ⟨rfl, rfl, rfl, rfl, rfl, _, rfl⟩

/-- `add_token` is `add_token_literal` with a `Nil` payload. -/
lemma Scanner.add_token_spec {s s' : Scanner} {type_ : TokenType}
    (h : s.add_token type_ = .ok s') :
    s'.source = s.source ∧ s'.start = s.start ∧ s'.current = s.current ∧
    s'.line = s.line ∧ s'.diags = s.diags ∧
    ∃ text, s'.tokens = s.tokens ++ [Token.new type_ (String.mk text) Object.Nil s.line] :=
  Scanner.add_token_literal_spec h

/-- An if-then-else of non-`Eof` kinds is not `Eof`. -/
lemma ite_ne_eof {c : Prop} [Decidable c] {a b : TokenType}
    (ha : a ≠ TokenType.Eof) (hb : b ≠ TokenType.Eof) :
    (if c then a else b) ≠ TokenType.Eof := by
  by_cases hc : c
  · rw [if_pos hc]; exact ha
  · rw [if_neg hc]; exact hb

/-- The keyword table never produces `Eof`. -/
lemma keywordKind_ne_eof (text : String) : keywordKind text ≠ TokenType.Eof := by
  unfold keywordKind
  repeat
    first
    | exact fun hh => TokenType.noConfusion hh
    | apply ite_ne_eof

/-- The comment loop only moves the cursor forward. -/
lemma Scanner.commentLoop_spec {fuel : Nat} {s s' : Scanner}
    (h : Scanner.commentLoop fuel s = .ok s') :
    s'.source = s.source ∧ s'.tokens = s.tokens ∧ s'.start = s.start ∧
    s'.line = s.line ∧ s'.diags = s.diags ∧ s.current ≤ s'.current := by
  induction fuel generalizing s with
  | zero =>
    rw [Scanner.commentLoop] at h
    rcases hP : s.peek with e | c
    · simp only [hP] at h
      exact Except.noConfusion h
    · simp only [hP] at h
      split at h
      · exact Except.noConfusion h
      · cases h
        exact ⟨rfl, rfl, rfl, rfl, rfl, Nat.le_refl _⟩
  | succ fuel ih =>
    rw [Scanner.commentLoop] at h
    rcases hP : s.peek with e | c
    · simp only [hP] at h
      exact Except.noConfusion h
    · simp only [hP] at h
      split at h
      · have := ih h
        simp only [Scanner.advance] at this
        obtain ⟨a, b, c2, d, e2, f⟩ := this
        exact ⟨a, b, c2, d, e2, by omega⟩
      · cases h
        exact ⟨rfl, rfl, rfl, rfl, rfl, Nat.le_refl _⟩

/-- The string loop moves the cursor forward and only ever increments the
line counter; it pushes no token. -/
lemma Scanner.stringLoop_spec {fuel : Nat} {s s' : Scanner}
    (h : Scanner.stringLoop fuel s = .ok s') :
    s'.source = s.source ∧ s'.tokens = s.tokens ∧ s'.start = s.start ∧
    s.line ≤ s'.line ∧ s'.diags = s.diags ∧ s.current ≤ s'.current := by
  induction fuel generalizing s with
  | zero =>
    rw [Scanner.stringLoop] at h
    rcases hP : s.peek with e | c
    · simp only [hP] at h
      exact Except.noConfusion h
    · simp only [hP] at h
      split at h
      · exact Except.noConfusion h
      · cases h
        exact ⟨rfl, rfl, rfl, Nat.le_refl _, rfl, Nat.le_refl _⟩
  | succ fuel ih =>
    rw [Scanner.stringLoop] at h
    rcases hP : s.peek with e | c
    · simp only [hP] at h
      exact Except.noConfusion h
    · simp only [hP] at h
      split at h
      · have := ih h
        simp only [Scanner.advance] at this
        split at this
        · obtain ⟨a, b, c2, d, e2, f⟩ := this
          have d2 : s.line + 1 ≤ s'.line := d
          have f2 : s.current + 1 ≤ s'.current := f
          exact ⟨a, b, c2, by omega, e2, by omega⟩
        · obtain ⟨a, b, c2, d, e2, f⟩ := this
          have d2 : s.line ≤ s'.line := d
          have f2 : s.current + 1 ≤ s'.current := f
          exact ⟨a, b, c2, by omega, e2, by omega⟩
      · cases h
        exact ⟨rfl, rfl, rfl, Nat.le_refl _, rfl, Nat.le_refl _⟩

/-- The digit loop moves the cursor forward over digits only, touching
nothing else. -/
lemma Scanner.digitLoop_spec {fuel : Nat} {s s' : Scanner}
    (h : Scanner.digitLoop fuel s = .ok s') :
    s'.source = s.source ∧ s'.tokens = s.tokens ∧ s'.start = s.start ∧
    s'.line = s.line ∧ s'.diags = s.diags ∧ s.current ≤ s'.current ∧
    (∀ i, s.current ≤ i → i < s'.current →
      ∃ c, s.source.get? i = some c ∧ Scanner.is_digit c) := by
  induction fuel generalizing s with
  | zero =>
    rw [Scanner.digitLoop] at h
    rcases hP : s.peek with e | c
    · simp only [hP] at h
      exact Except.noConfusion h
    · simp only [hP] at h
      split at h
      · exact Except.noConfusion h
      · cases h
        exact ⟨rfl, rfl, rfl, rfl, rfl, Nat.le_refl _,
          fun i hi1 hi2 => absurd hi2 (by omega)⟩
  | succ fuel ih =>
    rw [Scanner.digitLoop] at h
    rcases hP : s.peek with e | c
    · simp only [hP] at h
      exact Except.noConfusion h
    · simp only [hP] at h
      split at h
      · rename_i hdig
        have := ih h
        simp only [Scanner.advance] at this
        obtain ⟨a, b, c2, d, e2, f, g⟩ := this
        have hget : s.source.get? s.current = some c :=
          Scanner.peek_ok_get hP (by rintro rfl; exact absurd hdig (by decide))
        refine ⟨a, b, c2, d, e2, by omega, ?_⟩
        intro i hi1 hi2
        rcases Nat.eq_or_lt_of_le hi1 with hieq | hilt
        · exact ⟨c, hieq ▸ hget, hdig⟩
        · exact g i hilt hi2
      · cases h
        exact ⟨rfl, rfl, rfl, rfl, rfl, Nat.le_refl _,
          fun i hi1 hi2 => absurd hi2 (by omega)⟩

/-- The identifier loop moves the cursor forward, touching nothing else. -/
lemma Scanner.identLoop_spec {fuel : Nat} {s s' : Scanner}
    (h : Scanner.identLoop fuel s = .ok s') :
    s'.source = s.source ∧ s'.tokens = s.tokens ∧ s'.start = s.start ∧
    s'.line = s.line ∧ s'.diags = s.diags ∧ s.current ≤ s'.current := by
  induction fuel generalizing s with
  | zero =>
    rw [Scanner.identLoop] at h
    rcases hP : s.peek with e | c
    · simp only [hP] at h
      exact Except.noConfusion h
    · simp only [hP] at h
      split at h
      · exact Except.noConfusion h
      · cases h
        exact ⟨rfl, rfl, rfl, rfl, rfl, Nat.le_refl _⟩
  | succ fuel ih =>
    rw [Scanner.identLoop] at h
    rcases hP : s.peek with e | c
    · simp only [hP] at h
      exact Except.noConfusion h
    · simp only [hP] at h
      split at h
      · have := ih h
        simp only [Scanner.advance] at this
        obtain ⟨a, b, c2, d, e2, f⟩ := this
        exact ⟨a, b, c2, d, e2, by omega⟩
      · cases h
        exact ⟨rfl, rfl, rfl, rfl, rfl, Nat.le_refl _⟩

lemma Scanner.string_spec {s s' : Scanner} (h : Scanner.string s = .ok s') :
    s'.source = s.source ∧ s'.start = s.start ∧ s.current ≤ s'.current ∧
    s.line ≤ s'.line ∧
    (s'.tokens = s.tokens ∨ ∃ t, s'.tokens = s.tokens ++ [t] ∧
      t.type_ = TokenType.String ∧ t.line = s'.line) := by
  rw [Scanner.string] at h
  rcases hL : Scanner.stringLoop (byteLen s.source) s with e | s1
  · rw [hL] at h; exact Except.noConfusion h
  obtain ⟨hsrc, htok, hstart, hline, hdiag, hcur⟩ := Scanner.stringLoop_spec hL
  rw [hL] at h
  dsimp only [Bind.bind, Except.bind] at h
  split at h
  · dsimp only [Pure.pure, Except.pure] at h
    cases Except.ok.inj h
    exact ⟨hsrc, hstart, hcur, hline, Or.inl htok⟩
  · split at h
    · exact Except.noConfusion h
    · rename_i value hslice
      obtain ⟨asrc, astart, acur, aline, adiag, text, atoks⟩ :=
        Scanner.add_token_literal_spec h
      have acur2 : s'.current = s1.current + 1 := acur
      have aline2 : s'.line = s1.line := aline
      have atoks2 : s'.tokens = s1.tokens ++
          [Token.new TokenType.String (String.mk text)
            (Object.String (String.mk value)) s1.line] := atoks
      rw [htok] at atoks2
      refine ⟨asrc.trans hsrc, astart.trans hstart, by omega, by omega,
        Or.inr ⟨_, atoks2, rfl, aline2.symm⟩⟩

lemma Scanner.identifier_spec {s s' : Scanner} (h : Scanner.identifier s = .ok s') :
    s'.source = s.source ∧ s'.start = s.start ∧ s.current ≤ s'.current ∧
    s'.line = s.line ∧
    ∃ t, s'.tokens = s.tokens ++ [t] ∧ t.type_ ≠ TokenType.Eof ∧ t.line = s'.line := by
  rw [Scanner.identifier] at h
  rcases hL : Scanner.identLoop (byteLen s.source) s with e | s1
  · rw [hL] at h; exact Except.noConfusion h
  obtain ⟨hsrc, htok, hstart, hline, hdiag, hcur⟩ := Scanner.identLoop_spec hL
  rw [hL] at h
  dsimp only [Bind.bind, Except.bind] at h
  split at h
  · exact Except.noConfusion h
  · rename_i text hslice
    obtain ⟨asrc, astart, acur, aline, adiag, text2, atoks⟩ := Scanner.add_token_spec h
    have acur2 : s'.current = s1.current := acur
    have aline2 : s'.line = s1.line := aline
    have atoks2 : s'.tokens = s1.tokens ++
        [Token.new (keywordKind (String.mk text)) (String.mk text2) Object.Nil s1.line] :=
      atoks
    rw [htok] at atoks2
    refine ⟨asrc.trans hsrc, astart.trans hstart, by omega, by omega,
      _, atoks2, keywordKind_ne_eof _, aline2.symm⟩

lemma Scanner.number_spec {s s' : Scanner} (h : Scanner.number s = .ok s') :
    s'.source = s.source ∧ s'.start = s.start ∧ s.current ≤ s'.current ∧
    s'.line = s.line ∧
    ∃ t, s'.tokens = s.tokens ++ [t] ∧ t.type_ = TokenType.Number ∧ t.line = s'.line := by
  rw [Scanner.number] at h
  rcases hL : Scanner.digitLoop (byteLen s.source) s with e | s1
  · rw [hL] at h; exact Except.noConfusion h
  obtain ⟨hsrc, htok, hstart, hline, hdiag, hcur, hspan⟩ := Scanner.digitLoop_spec hL
  rw [hL] at h
  dsimp only [Bind.bind, Except.bind] at h
  rcases hP : s1.peek with e | c
  · rw [hP] at h; exact Except.noConfusion h
  rw [hP] at h
  dsimp only [Bind.bind, Except.bind] at h
  -- the optional fractional part: whatever branch ran, it leaves a state s2
  -- with the same fields except a larger cursor
  have hmid : ∀ s2 : Scanner,
      (match sliceBytes s2.source s2.start s2.current with
        | none => Except.error "byte index is not a char boundary"
        | some text =>
          match parseF64 text with
          | none => Except.error "unwrap on Err"
          | some value =>
            s2.add_token_literal TokenType.Number (Object.Number value)) = .ok s' →
      s1.current ≤ s2.current → s2.source = s1.source → s2.start = s1.start →
      s2.line = s1.line → s2.tokens = s1.tokens →
      s'.source = s.source ∧ s'.start = s.start ∧ s.current ≤ s'.current ∧
      s'.line = s.line ∧
      ∃ t, s'.tokens = s.tokens ++ [t] ∧ t.type_ = TokenType.Number ∧
        t.line = s'.line := by
    intro s2 h2 hc2 hs2 hst2 hl2 ht2
    split at h2
    · exact Except.noConfusion h2
    · rename_i text hslice
      split at h2
      · exact Except.noConfusion h2
      · rename_i value hparse
        obtain ⟨asrc, astart, acur, aline, adiag, text2, atoks⟩ :=
          Scanner.add_token_literal_spec h2
        have acur2 : s'.current = s2.current := acur
        have aline2 : s'.line = s2.line := aline
        have atoks2 : s'.tokens = s2.tokens ++
            [Token.new TokenType.Number (String.mk text2)
              (Object.Number value) s2.line] := atoks
        rw [ht2] at atoks2
        rw [htok] at atoks2
        exact ⟨asrc.trans (hs2.trans hsrc), astart.trans (hst2.trans hstart),
          by omega, by omega, _, atoks2, rfl, aline2.symm⟩
  by_cases hdot : c = '.'
  · rw [if_pos hdot] at h
    rcases hP2 : s1.peek_next with e2 | c2
    · simp only [hP2] at h
      exact Except.noConfusion h
    simp only [hP2] at h
    by_cases hd2 : Scanner.is_digit c2
    · rw [if_pos hd2] at h
      rcases hD2 : Scanner.digitLoop (byteLen ((s1.advance).1).source) ((s1.advance).1) with e3 | s2
      · simp only [hD2] at h
        exact Except.noConfusion h
      simp only [hD2] at h
      obtain ⟨src2, tok2, st2, l2, d2, cur2, span2⟩ := Scanner.digitLoop_spec hD2
      have cur2b : s1.current + 1 ≤ s2.current := cur2
      exact hmid s2 h (by omega) (src2.trans rfl) st2 l2 tok2
    · rw [if_neg hd2] at h
      dsimp only [Pure.pure, Except.pure] at h
      exact hmid s1 h (Nat.le_refl _) rfl rfl rfl rfl
  · rw [if_neg hdot] at h
    dsimp only [Pure.pure, Except.pure] at h
    exact hmid s1 h (Nat.le_refl _) rfl rfl rfl rfl

/-- Helper for the `add_token` arms of `scan_token_spec`. -/
lemma Scanner.scan_token_spec_add {s s2 s' : Scanner} {ty : TokenType}
    (h : s2.add_token ty = .ok s') (hty : ty ≠ TokenType.Eof)
    (hsrc : s2.source = s.source) (hst : s2.start = s.start)
    (hcur : s.current < s2.current) (hline : s2.line = s.line)
    (htok : s2.tokens = s.tokens) :
    s'.source = s.source ∧ s'.start = s.start ∧ s.current < s'.current ∧
    s.line ≤ s'.line ∧
    (s'.tokens = s.tokens ∨ ∃ t, s'.tokens = s.tokens ++ [t] ∧
      t.type_ ≠ TokenType.Eof ∧ s.line ≤ t.line ∧ t.line ≤ s'.line) := by
  obtain ⟨a, b, c, d, e, text, f⟩ := Scanner.add_token_spec h
  rw [htok, hline] at f
  refine ⟨a.trans hsrc, b.trans hst, by omega, ?_, Or.inr ⟨_, f, hty, Nat.le_refl _, ?_⟩⟩
  · have : s'.line = s.line := d.trans hline
    omega
  · have : s'.line = s.line := d.trans hline
    exact this.ge

/-- `match_char` relates its output state to its input state. -/
lemma Scanner.match_char_spec2 {s : Scanner} {e : Char} {s2 : Scanner} {m : Bool}
    (h : s.match_char e = (s2, m)) :
    s2.source = s.source ∧ s2.tokens = s.tokens ∧ s2.start = s.start ∧
    s2.line = s.line ∧ s2.diags = s.diags ∧
    s.current ≤ s2.current ∧ s2.current ≤ s.current + 1 := by
  have := Scanner.match_char_spec s e
  rw [h] at this
  exact this

/-- One `scan_token` from a valid state preserves the source, leaves `start`
alone, strictly advances the cursor, never decreases the line counter, and
pushes at most one token, never an `Eof`, stamped with a line between the
old and the new line counter. -/
lemma Scanner.scan_token_spec {s s' : Scanner} (h : Scanner.scan_token s = .ok s') :
    s'.source = s.source ∧ s'.start = s.start ∧ s.current < s'.current ∧
    s.line ≤ s'.line ∧
    (s'.tokens = s.tokens ∨ ∃ t, s'.tokens = s.tokens ++ [t] ∧
      t.type_ ≠ TokenType.Eof ∧ s.line ≤ t.line ∧ t.line ≤ s'.line) := by
  rw [Scanner.scan_token] at h
  dsimp only [Scanner.advance] at h
  split at h
  · -- advance returned no character
    rename_i s2 heq
    injection heq with h1 h2
    subst h1
    cases Except.ok.inj h
    exact ⟨rfl, rfl, Nat.lt_succ_self _, Nat.le_refl _, Or.inl rfl⟩
  · -- advance returned a character: dispatch on it
    rename_i s2 c heq
    injection heq with h1 h2
    subst h1
    split at h
    -- single-character punctuation: ( ) { } , . - + ; *
    iterate 10
      exact Scanner.scan_token_spec_add h (by decide) rfl rfl
        (Nat.lt_succ_self _) rfl rfl
    -- the four one-or-two-character operators ! = < >
    iterate 4
      · obtain ⟨m1, m2, m3, m4, m5, m6, m7⟩ := Scanner.match_char_spec
          ⟨s.source, s.tokens, s.start, s.current + 1, s.line, s.diags⟩ '='
        have m6b : s.current + 1 ≤ (Scanner.match_char
          ⟨s.source, s.tokens, s.start, s.current + 1, s.line, s.diags⟩ '=').1.current := m6
        exact Scanner.scan_token_spec_add h (ite_ne_eof (by decide) (by decide))
          m1 m3 (by omega) m4 m2
    -- the / arm: comment or Slash token
    · obtain ⟨m1, m2, m3, m4, m5, m6, m7⟩ := Scanner.match_char_spec
        ⟨s.source, s.tokens, s.start, s.current + 1, s.line, s.diags⟩ '/'
      have m6b : s.current + 1 ≤ (Scanner.match_char
        ⟨s.source, s.tokens, s.start, s.current + 1, s.line, s.diags⟩ '/').1.current := m6
      split at h
      · obtain ⟨c1, c2, c3, c4, c5, c6⟩ := Scanner.commentLoop_spec h
        have c6b : (Scanner.match_char
          ⟨s.source, s.tokens, s.start, s.current + 1, s.line, s.diags⟩ '/').1.current
            ≤ s'.current := c6
        have c4b : s'.line = (Scanner.match_char
          ⟨s.source, s.tokens, s.start, s.current + 1, s.line, s.diags⟩ '/').1.line := c4
        have m4b : (Scanner.match_char
          ⟨s.source, s.tokens, s.start, s.current + 1, s.line, s.diags⟩ '/').1.line
            = s.line := m4
        exact ⟨c1.trans m1, c3.trans m3, by omega, by omega,
          Or.inl (c2.trans m2)⟩
      · exact Scanner.scan_token_spec_add h (by decide) m1 m3 (by omega) m4 m2
    -- whitespace, including newline: nothing happens
    iterate 4
      · cases Except.ok.inj h
        exact ⟨rfl, rfl, Nat.lt_succ_self _, Nat.le_refl _, Or.inl rfl⟩
    -- string literal
    · obtain ⟨a, b, cle, dline, e⟩ := Scanner.string_spec h
      have cle2 : s.current + 1 ≤ s'.current := cle
      refine ⟨a, b, by omega, dline, ?_⟩
      rcases e with e | ⟨t, ht, hty, htl⟩
      · exact Or.inl e
      · refine Or.inr ⟨t, ht, by rw [hty]; decide, ?_, le_of_eq htl⟩
        rw [htl]
        exact dline
    -- number, identifier, or an unexpected character
    · split at h
      · obtain ⟨a, b, cle, dl, t, ht, hty, htl⟩ := Scanner.number_spec h
        have cle2 : s.current + 1 ≤ s'.current := cle
        have dl2 : s'.line = s.line := dl
        refine ⟨a, b, by omega, by omega, Or.inr ⟨t, ht, by rw [hty]; decide,
          ?_, le_of_eq htl⟩⟩
        rw [htl]
        omega
      · split at h
        · obtain ⟨a, b, cle, dl, t, ht, hty, htl⟩ := Scanner.identifier_spec h
          have cle2 : s.current + 1 ≤ s'.current := cle
          have dl2 : s'.line = s.line := dl
          refine ⟨a, b, by omega, by omega, Or.inr ⟨t, ht, hty, ?_, le_of_eq htl⟩⟩
          rw [htl]
          omega
        · cases Except.ok.inj h
          exact ⟨rfl, rfl, Nat.lt_succ_self _, Nat.le_refl _, Or.inl rfl⟩

/-- The `while` loop of `Scanner::scan_tokens`: set `start` to the cursor
and scan one token, until the cursor passes the source's byte length.
`fuel` bounds the iterations for structural recursion; `scan_tokens` passes
the byte length, which can never run out because every `scan_token` both
requires the cursor to be below it and strictly advances the cursor. -/
def Scanner.scanLoop : Nat → Scanner → Except String Scanner
  | fuel, s =>
    if s.is_at_end s.current then .ok s
    else
      match ({ s with start := s.current } : Scanner).scan_token with
      | .error e => .error e
      | .ok s2 =>
        match fuel with
        | 0 => .error "loop fuel exhausted"
        | fuel + 1 => Scanner.scanLoop fuel s2

/-- `Scanner::scan_tokens`: run the scan loop, then append the final `Eof`
token (stamped with the final line counter) and return the token list
together with the final scanner state. -/
def Scanner.scan_tokens (s : Scanner) : Except String (List Token × Scanner) := do
  let s ← Scanner.scanLoop (byteLen s.source) s
  let s := { s with tokens :=
    s.tokens ++ [Token.new TokenType.Eof "" Object.Nil s.line] }
  pure (s.tokens, s)

/-- `scan`: the boundary operation `Scanner::new(source).scan_tokens()` as
the collaborators (tests, wasm host) drive it. -/
def scan (source : String) : Except String (List Token) := do
  let (tokens, _) ← (Scanner.new source).scan_tokens
  pure tokens

/-- `scan` bundled with the diagnostics the scanner printed. -/
def scanDiags (source : String) : Except String (List Token × List String) := do
  let (tokens, s) ← (Scanner.new source).scan_tokens
  pure (tokens, s.diags)

/-- The source text is plain ASCII: every character is one UTF-8 byte.  On
such sources the scanner's byte arithmetic and character arithmetic agree. -/
def AllAscii (l : List Char) : Prop :=
  ∀ c ∈ l, c.utf8Size = 1

instance : DecidablePred AllAscii := fun l =>
  List.decidableBAll _ l

/-- On ASCII text the byte length is the character count. -/
lemma byteLen_ascii {l : List Char} (h : AllAscii l) : byteLen l = l.length := by
  induction l with
  | nil => rfl
  | cons c cs ih =>
    have hc : c.utf8Size = 1 := h c (List.mem_cons_self _ _)
    have := ih fun d hd => h d (List.mem_cons_of_mem _ hd)
    simp [byteLen] at this ⊢
    omega

/-- On ASCII text every offset up to the length is a character boundary at
the same index. -/
lemma charBoundary_ascii {l : List Char} (h : AllAscii l) :
    ∀ n, n ≤ l.length → charBoundary l n = some n := by
  induction l with
  | nil =>
    intro n hn
    have : n = 0 := by simpa using hn
    subst this
    rfl
  | cons c cs ih =>
    intro n hn
    match n with
    | 0 => rfl
    | n + 1 =>
      have hc : c.utf8Size = 1 := h c (List.mem_cons_self _ _)
      rw [charBoundary, if_pos (by omega)]
      have : n + 1 - c.utf8Size = n := by omega
      rw [this, ih (fun d hd => h d (List.mem_cons_of_mem _ hd)) n (by simpa using hn)]
      rfl

/-- On ASCII text every in-bounds byte slice succeeds and is the
corresponding character slice. -/
lemma sliceBytes_ascii {l : List Char} (h : AllAscii l) {a b : Nat}
    (hab : a ≤ b) (hb : b ≤ l.length) :
    sliceBytes l a b = some ((l.take b).drop a) := by
  rw [sliceBytes]
  rw [charBoundary_ascii h a (le_trans hab hb), charBoundary_ascii h b hb]
  simp [hab]

/-- On ASCII text `peek` always succeeds. -/
lemma Scanner.peek_ascii {s : Scanner} (h : AllAscii s.source) :
    ∃ c, s.peek = .ok c := by
  rw [Scanner.peek]
  split
  · exact ⟨_, rfl⟩
  · rename_i hend
    simp only [Scanner.is_at_end, decide_eq_true_eq] at hend
    rw [byteLen_ascii h] at hend
    rcases List.get?_eq_get (show s.current < s.source.length by omega) with hg
    rw [hg]
    exact ⟨_, rfl⟩

/-- On ASCII text `peek_next` always succeeds. -/
lemma Scanner.peek_next_ascii {s : Scanner} (h : AllAscii s.source) :
    ∃ c, s.peek_next = .ok c := by
  rw [Scanner.peek_next]
  split
  · exact ⟨_, rfl⟩
  · rename_i hend
    rw [byteLen_ascii h] at hend
    rcases List.get?_eq_get (show s.current + 1 < s.source.length by omega) with hg
    rw [hg]
    exact ⟨_, rfl⟩

/-- On ASCII text the comment loop runs to completion within the byte-length
fuel, keeping the cursor in bounds. -/
lemma Scanner.commentLoop_ascii {fuel : Nat} {s : Scanner}
    (hA : AllAscii s.source) (hc : s.current ≤ byteLen s.source)
    (hf : byteLen s.source ≤ fuel + s.current) :
    ∃ s', Scanner.commentLoop fuel s = .ok s' ∧ s'.current ≤ byteLen s.source := by
  induction fuel generalizing s with
  | zero =>
    obtain ⟨c, hP⟩ := Scanner.peek_ascii hA
    rw [Scanner.commentLoop]
    simp only [hP]
    split
    · rename_i hcond
      exfalso
      have := hcond.2
      simp only [Scanner.is_at_end, decide_eq_true_eq] at this
      omega
    · exact ⟨s, rfl, hc⟩
  | succ fuel ih =>
    obtain ⟨c, hP⟩ := Scanner.peek_ascii hA
    rw [Scanner.commentLoop]
    simp only [hP]
    split
    · rename_i hcond
      have hlt : ¬ byteLen s.source ≤ s.current := by
        have := hcond.2
        simp only [Scanner.is_at_end, decide_eq_true_eq] at this
        exact this
      exact ih hA (show s.current + 1 ≤ byteLen s.source by omega)
        (show byteLen s.source ≤ fuel + (s.current + 1) by omega)
    · exact ⟨s, rfl, hc⟩

/-- On ASCII text the string loop runs to completion within the byte-length
fuel, keeping the cursor in bounds. -/
lemma Scanner.stringLoop_ascii {fuel : Nat} {s : Scanner}
    (hA : AllAscii s.source) (hc : s.current ≤ byteLen s.source)
    (hf : byteLen s.source ≤ fuel + s.current) :
    ∃ s', Scanner.stringLoop fuel s = .ok s' ∧ s'.current ≤ byteLen s.source := by
  induction fuel generalizing s with
  | zero =>
    obtain ⟨c, hP⟩ := Scanner.peek_ascii hA
    rw [Scanner.stringLoop]
    simp only [hP]
    split
    · rename_i hcond
      exfalso
      have := hcond.2
      simp only [Scanner.is_at_end, decide_eq_true_eq] at this
      omega
    · exact ⟨s, rfl, hc⟩
  | succ fuel ih =>
    obtain ⟨c, hP⟩ := Scanner.peek_ascii hA
    rw [Scanner.stringLoop]
    simp only [hP]
    split
    · rename_i hcond
      have hlt : ¬ byteLen s.source ≤ s.current := by
        have := hcond.2
        simp only [Scanner.is_at_end, decide_eq_true_eq] at this
        exact this
      split
      · exact ih hA (show s.current + 1 ≤ byteLen s.source by omega)
          (show byteLen s.source ≤ fuel + (s.current + 1) by omega)
      · exact ih hA (show s.current + 1 ≤ byteLen s.source by omega)
          (show byteLen s.source ≤ fuel + (s.current + 1) by omega)
    · exact ⟨s, rfl, hc⟩

/-- On ASCII text the digit loop runs to completion within the byte-length
fuel, keeping the cursor in bounds. -/
lemma Scanner.digitLoop_ascii {fuel : Nat} {s : Scanner}
    (hA : AllAscii s.source) (hc : s.current ≤ byteLen s.source)
    (hf : byteLen s.source ≤ fuel + s.current) :
    ∃ s', Scanner.digitLoop fuel s = .ok s' ∧ s'.current ≤ byteLen s.source := by
  induction fuel generalizing s with
  | zero =>
    obtain ⟨c, hP⟩ := Scanner.peek_ascii hA
    rw [Scanner.digitLoop]
    simp only [hP]
    split
    · rename_i hdig
      exfalso
      have := Scanner.peek_ok_lt hP (by rintro rfl; exact absurd hdig (by decide))
      omega
    · exact ⟨s, rfl, hc⟩
  | succ fuel ih =>
    obtain ⟨c, hP⟩ := Scanner.peek_ascii hA
    rw [Scanner.digitLoop]
    simp only [hP]
    split
    · rename_i hdig
      have hlt := Scanner.peek_ok_lt hP (by rintro rfl; exact absurd hdig (by decide))
      exact ih hA (show s.current + 1 ≤ byteLen s.source by omega)
        (show byteLen s.source ≤ fuel + (s.current + 1) by omega)
    · exact ⟨s, rfl, hc⟩

/-- On ASCII text the identifier loop runs to completion within the
byte-length fuel, keeping the cursor in bounds. -/
lemma Scanner.identLoop_ascii {fuel : Nat} {s : Scanner}
    (hA : AllAscii s.source) (hc : s.current ≤ byteLen s.source)
    (hf : byteLen s.source ≤ fuel + s.current) :
    ∃ s', Scanner.identLoop fuel s = .ok s' ∧ s'.current ≤ byteLen s.source := by
  induction fuel generalizing s with
  | zero =>
    obtain ⟨c, hP⟩ := Scanner.peek_ascii hA
    rw [Scanner.identLoop]
    simp only [hP]
    split
    · rename_i hid
      exfalso
      have := Scanner.peek_ok_lt hP (by rintro rfl; exact absurd hid (by decide))
      omega
    · exact ⟨s, rfl, hc⟩
  | succ fuel ih =>
    obtain ⟨c, hP⟩ := Scanner.peek_ascii hA
    rw [Scanner.identLoop]
    simp only [hP]
    split
    · rename_i hid
      have hlt := Scanner.peek_ok_lt hP (by rintro rfl; exact absurd hid (by decide))
      exact ih hA (show s.current + 1 ≤ byteLen s.source by omega)
        (show byteLen s.source ≤ fuel + (s.current + 1) by omega)
    · exact ⟨s, rfl, hc⟩

/-- `takeWhile` swallows a whole prefix that satisfies the predicate and
stops at the first failure. -/
lemma takeWhile_append_stop {p : Char → Bool} {A : List Char} {x : Char}
    {B : List Char} (hA : ∀ a ∈ A, p a = true) (hx : p x = false) :
    (A ++ x :: B).takeWhile p = A := by
  induction A with
  | nil => simp [List.takeWhile_cons, hx]
  | cons a A ih =>
    have ha : p a = true := hA a (List.mem_cons_self _ _)
    simp [List.takeWhile_cons, ha,
      ih fun b hb => hA b (List.mem_cons_of_mem _ hb)]

/-- Companion of `takeWhile_append_stop` for `dropWhile`. -/
lemma dropWhile_append_stop {p : Char → Bool} {A : List Char} {x : Char}
    {B : List Char} (hA : ∀ a ∈ A, p a = true) (hx : p x = false) :
    (A ++ x :: B).dropWhile p = x :: B := by
  induction A with
  | nil => simp [List.dropWhile_cons, hx]
  | cons a A ih =>
    have ha : p a = true := hA a (List.mem_cons_self _ _)
    simp [List.dropWhile_cons, ha,
      ih fun b hb => hA b (List.mem_cons_of_mem _ hb)]

/-- `takeWhile` of an all-satisfying list is the list itself. -/
lemma takeWhile_all_eq {p : Char → Bool} {A : List Char}
    (hA : ∀ a ∈ A, p a = true) : A.takeWhile p = A := by
  induction A with
  | nil => rfl
  | cons a A ih =>
    have ha : p a = true := hA a (List.mem_cons_self _ _)
    simp [List.takeWhile_cons, ha,
      ih fun b hb => hA b (List.mem_cons_of_mem _ hb)]

/-- `dropWhile` of an all-satisfying list is empty. -/
lemma dropWhile_all_eq {p : Char → Bool} {A : List Char}
    (hA : ∀ a ∈ A, p a = true) : A.dropWhile p = [] := by
  induction A with
  | nil => rfl
  | cons a A ih =>
    have ha : p a = true := hA a (List.mem_cons_self _ _)
    simp [List.dropWhile_cons, ha,
      ih fun b hb => hA b (List.mem_cons_of_mem _ hb)]

/-- A nonempty all-digit text parses. -/
lemma parseF64_digits {A : List Char} (hne : A ≠ [])
    (hA : ∀ a ∈ A, Scanner.is_digit a = true) :
    ∃ v, parseF64 A = some v := by
  rw [parseF64]
  simp only [takeWhile_all_eq hA, dropWhile_all_eq hA]
  rw [if_neg hne]
  exact ⟨_, rfl⟩

/-- A nonempty all-digit integer part, a dot, and a nonempty all-digit
fractional part parse. -/
lemma parseF64_frac {A B : List Char} (hneA : A ≠ [])
    (hA : ∀ a ∈ A, Scanner.is_digit a = true) (hneB : B ≠ [])
    (hB : ∀ b ∈ B, Scanner.is_digit b = true) :
    ∃ v, parseF64 (A ++ '.' :: B) = some v := by
  have hdot : Scanner.is_digit '.' = false := by decide
  rw [parseF64]
  simp only [takeWhile_append_stop hA hdot, dropWhile_append_stop hA hdot]
  rw [if_neg hneA]
  rw [if_pos ⟨hneB, List.all_eq_true.mpr hB⟩]
  exact ⟨_, rfl⟩

/-- Every element of a slice over a digit span is a digit. -/
lemma all_digits_span {l : List Char} {a b : Nat} (hb : b ≤ l.length)
    (h : ∀ i, a ≤ i → i < b → ∃ c, l.get? i = some c ∧ Scanner.is_digit c) :
    ∀ x ∈ (l.take b).drop a, Scanner.is_digit x = true := by
  intro x hx
  obtain ⟨j, hj, hget⟩ := List.mem_iff_getElem.mp hx
  have hjlen : a + j < b := by
    have := hj
    simp [List.length_drop, List.length_take] at this
    omega
  obtain ⟨c, hc, hd⟩ := h (a + j) (by omega) hjlen
  have hcx : x = l.get ⟨a + j, by omega⟩ := by
    rw [← hget]
    simp [List.getElem_drop, List.getElem_take, List.get_eq_getElem]
  rw [List.get?_eq_get (show a + j < l.length by omega)] at hc
  cases hc
  rw [hcx]
  exact hd

/-- Splitting a contiguous slice at an interior point. -/
lemma take_drop_split (l : List Char) {a m b : Nat} (h1 : a ≤ m) (h2 : m ≤ b)
    (h3 : b ≤ l.length) :
    (l.take b).drop a = ((l.take m).drop a) ++ ((l.take b).drop m) := by
  conv_lhs => rw [← List.take_append_drop m (l.take b)]
  rw [List.take_take, min_eq_left h2]
  rw [List.drop_append_of_le_length]
  rw [List.length_take]
  omega

/-- Peeling the head character off a slice. -/
lemma drop_take_cons {l : List Char} {m b : Nat} (h2 : m < b) (h3 : b ≤ l.length) :
    (l.take b).drop m
      = l.get ⟨m, by omega⟩ :: (l.take b).drop (m + 1) := by
  have hXlen : (l.take b).length = b := by
    rw [List.length_take]
    omega
  rw [List.drop_eq_get_cons (show m < (l.take b).length by omega)]
  congr 1
  exact (List.get_take l (by omega) h2).symm

/-- A successful `peek_next` of anything but `'\0'` reads the character
after the cursor, which is then strictly inside the byte range. -/
lemma Scanner.peek_next_ok_get {s : Scanner} {c : Char} (h : s.peek_next = .ok c)
    (hc : c ≠ '\x00') :
    s.source.get? (s.current + 1) = some c ∧ s.current + 1 < byteLen s.source := by
  rw [Scanner.peek_next] at h
  split at h
  · exact absurd (Except.ok.inj h).symm hc
  · rename_i hend
    split at h
    · rename_i heq
      rw [heq]
      exact ⟨congrArg some (Except.ok.inj h), by omega⟩
    · exact Except.noConfusion h

/-- A digit under the cursor forces the digit loop to consume at least one
character. -/
lemma Scanner.digitLoop_consumes {fuel : Nat} {s s' : Scanner} {c : Char}
    (h : Scanner.digitLoop fuel s = .ok s') (hP : s.peek = .ok c)
    (hd : Scanner.is_digit c = true) : s.current < s'.current := by
  match fuel with
  | 0 =>
    rw [Scanner.digitLoop] at h
    simp only [hP] at h
    rw [if_pos hd] at h
    exact Except.noConfusion h
  | fuel + 1 =>
    rw [Scanner.digitLoop] at h
    simp only [hP] at h
    rw [if_pos hd] at h
    obtain ⟨_, _, _, _, _, hcur, _⟩ := Scanner.digitLoop_spec h
    have : s.current + 1 ≤ s'.current := hcur
    omega

/-- On ASCII text `string` never panics: the loop completes and both byte
slices land on character boundaries. -/
lemma Scanner.string_ascii {s : Scanner} (hA : AllAscii s.source)
    (hc : s.current ≤ byteLen s.source) (hsc : s.current = s.start + 1) :
    ∃ s', Scanner.string s = .ok s' := by
  obtain ⟨s1, hL, hc1⟩ :=
    @Scanner.stringLoop_ascii (byteLen s.source) s hA hc (by omega)
  obtain ⟨sp1, sp2, sp3, sp4, sp5, sp6⟩ := Scanner.stringLoop_spec hL
  rw [Scanner.string, hL]
  dsimp only [Bind.bind, Except.bind]
  split
  · exact ⟨_, rfl⟩
  · rename_i hend
    simp only [Scanner.is_at_end, decide_eq_true_eq] at hend
    have hA1 : AllAscii s1.source := sp1 ▸ hA
    have hlen1 : byteLen s1.source = s1.source.length := byteLen_ascii hA1
    have hstart : s1.start = s.start := sp3
    have hcur16 : s.current ≤ s1.current := sp6
    dsimp only [Scanner.advance]
    simp only [Nat.add_sub_cancel]
    rw [sliceBytes_ascii hA1 (by omega) (by omega)]
    dsimp only
    rw [Scanner.add_token_literal]
    dsimp only
    rw [sliceBytes_ascii hA1 (by omega) (by omega)]
    exact ⟨_, rfl⟩

/-- On ASCII text `identifier` never panics. -/
lemma Scanner.identifier_ascii {s : Scanner} (hA : AllAscii s.source)
    (hc : s.current ≤ byteLen s.source) (hsc : s.current = s.start + 1) :
    ∃ s', Scanner.identifier s = .ok s' := by
  obtain ⟨s1, hL, hc1⟩ :=
    @Scanner.identLoop_ascii (byteLen s.source) s hA hc (by omega)
  obtain ⟨sp1, sp2, sp3, sp4, sp5, sp6⟩ := Scanner.identLoop_spec hL
  have hA1 : AllAscii s1.source := sp1 ▸ hA
  have hlen1 : byteLen s1.source = s1.source.length := byteLen_ascii hA1
  have hbl : byteLen s1.source = byteLen s.source := by rw [sp1]
  have hstart : s1.start = s.start := sp3
  have hcur16 : s.current ≤ s1.current := sp6
  rw [Scanner.identifier, hL]
  dsimp only [Bind.bind, Except.bind]
  rw [sliceBytes_ascii hA1 (by omega) (by omega)]
  dsimp only
  rw [Scanner.add_token, Scanner.add_token_literal]
  rw [sliceBytes_ascii hA1 (by omega) (by omega)]
  exact ⟨_, rfl⟩

/-- On ASCII text `number`, entered right after a digit character, never
panics: the loops complete, both slices land on boundaries, and the sliced
text has the digit shape that parses. -/
lemma Scanner.number_ascii {s : Scanner} (hA : AllAscii s.source)
    (hc : s.current ≤ byteLen s.source) (hsc : s.current = s.start + 1)
    {c0 : Char} (hg0 : s.source.get? s.start = some c0)
    (hd0 : Scanner.is_digit c0 = true) :
    ∃ s', Scanner.number s = .ok s' := by
  obtain ⟨s1, hL, hb1⟩ :=
    @Scanner.digitLoop_ascii (byteLen s.source) s hA hc (by omega)
  obtain ⟨sp1, sp2, sp3, sp4, sp5, sp6, span1⟩ := Scanner.digitLoop_spec hL
  have hA1 : AllAscii s1.source := sp1 ▸ hA
  have hlen1 : byteLen s1.source = s1.source.length := byteLen_ascii hA1
  have hbl : byteLen s1.source = byteLen s.source := by rw [sp1]
  have hlen0 : byteLen s.source = s.source.length := byteLen_ascii hA
  obtain ⟨c, hP⟩ := Scanner.peek_ascii hA1
  have hspanFull : ∀ i, s.start ≤ i → i < s1.current →
      ∃ ci, s.source.get? i = some ci ∧ Scanner.is_digit ci := by
    intro i h1 h2
    rcases Nat.eq_or_lt_of_le h1 with heq | hlt
    · exact ⟨c0, heq ▸ hg0, hd0⟩
    · exact span1 i (by omega) h2
  have hb1len : s1.current ≤ s.source.length := by omega
  have hAdig : ∀ x ∈ (s.source.take s1.current).drop s.start,
      Scanner.is_digit x = true := all_digits_span hb1len hspanFull
  have hAne : (s.source.take s1.current).drop s.start ≠ [] := by
    have hlendrop : ((s.source.take s1.current).drop s.start).length
        = s1.current - s.start := by
      simp [List.length_drop, List.length_take]
      omega
    intro hnil
    rw [hnil] at hlendrop
    simp at hlendrop
    omega
  rw [Scanner.number, hL]
  dsimp only [Bind.bind, Except.bind]
  rw [hP]
  dsimp only [Bind.bind, Except.bind]
  by_cases hdot : c = '.'
  · rw [if_pos hdot]
    subst hdot
    obtain ⟨c2, hP2⟩ := Scanner.peek_next_ascii hA1
    rw [hP2]
    dsimp only [Bind.bind, Except.bind]
    by_cases hd2 : Scanner.is_digit c2
    · rw [if_pos hd2]
      have hc2ne : c2 ≠ '\x00' := by
        rintro rfl
        exact absurd hd2 (by decide)
      obtain ⟨hg2, hlt2⟩ := Scanner.peek_next_ok_get hP2 hc2ne
      have hdotlt : s1.current < byteLen s1.source :=
        Scanner.peek_ok_lt hP (by decide)
      have hgdot : s1.source.get? s1.current = some '.' :=
        Scanner.peek_ok_get hP (by decide)
      dsimp only [Scanner.advance]
      obtain ⟨s2, hL2, hb2⟩ :=
        @Scanner.digitLoop_ascii (byteLen s1.source)
          { s1 with current := s1.current + 1 } hA1
          (by show s1.current + 1 ≤ byteLen s1.source; omega)
          (by show byteLen s1.source ≤ byteLen s1.source + (s1.current + 1); omega)
      rw [hL2]
      dsimp only [Bind.bind, Except.bind]
      obtain ⟨t1, t2, t3, t4, t5, t6, span2⟩ := Scanner.digitLoop_spec hL2
      have hsrc2 : s2.source = s.source := by
        have h1 : s2.source = s1.source := t1
        rw [h1, sp1]
      have hstart2 : s2.start = s.start := by
        have h1 : s2.start = s1.start := t3
        rw [h1, sp3]
      have hcur2 : s1.current + 1 ≤ s2.current := t6
      have hb2' : s2.current ≤ s.source.length := by
        have : s2.current ≤ byteLen s1.source := hb2
        omega
      have hPr : ({ s1 with current := s1.current + 1 } : Scanner).peek
          = .ok c2 := by
        rw [Scanner.peek]
        rw [if_neg (by simp [Scanner.is_at_end]; omega)]
        dsimp only
        rw [hg2]
      have hcons2 := Scanner.digitLoop_consumes hL2 hPr hd2
      have hcons2' : s1.current + 2 ≤ s2.current := hcons2
      have span2' : ∀ i, s1.current + 1 ≤ i → i < s2.current →
          ∃ ci, s.source.get? i = some ci ∧ Scanner.is_digit ci := by
        intro i h1 h2
        obtain ⟨ci, hci, hdi⟩ := span2 i h1 h2
        refine ⟨ci, ?_, hdi⟩
        rw [← sp1]
        exact hci
      have hBdig : ∀ x ∈ (s.source.take s2.current).drop (s1.current + 1),
          Scanner.is_digit x = true := all_digits_span hb2' span2'
      have hBne : (s.source.take s2.current).drop (s1.current + 1) ≠ [] := by
        have hlendrop : ((s.source.take s2.current).drop (s1.current + 1)).length
            = s2.current - (s1.current + 1) := by
          simp [List.length_drop, List.length_take]
          omega
        intro hnil
        rw [hnil] at hlendrop
        simp at hlendrop
        omega
      rw [hsrc2, hstart2]
      rw [sliceBytes_ascii hA (by omega) hb2']
      dsimp only
      have hsplit : (s.source.take s2.current).drop s.start
          = ((s.source.take s1.current).drop s.start)
            ++ ((s.source.take s2.current).drop s1.current) :=
        take_drop_split _ (by omega) (by omega) hb2'
      have hcons : (s.source.take s2.current).drop s1.current
          = s.source.get ⟨s1.current, by omega⟩
            :: (s.source.take s2.current).drop (s1.current + 1) :=
        drop_take_cons (by omega) hb2'
      have hdotat : s.source.get ⟨s1.current, by omega⟩ = '.' := by
        have hg : s.source.get? s1.current = some '.' := by
          rw [← sp1]
          exact hgdot
        rw [List.get?_eq_get (show s1.current < s.source.length by omega)] at hg
        exact Option.some.inj hg
      rw [hsplit, hcons, hdotat]
      obtain ⟨v, hv⟩ := parseF64_frac hAne hAdig hBne hBdig
      rw [hv]
      dsimp only
      rw [Scanner.add_token_literal]
      rw [hsrc2, hstart2]
      rw [sliceBytes_ascii hA (by omega) hb2']
      exact ⟨_, rfl⟩
    · rw [if_neg hd2]
      dsimp only [Pure.pure, Except.pure, Bind.bind, Except.bind]
      rw [sp1, sp3]
      rw [sliceBytes_ascii hA (by omega) hb1len]
      dsimp only
      obtain ⟨v, hv⟩ := parseF64_digits hAne hAdig
      rw [hv]
      dsimp only
      rw [Scanner.add_token_literal]
      rw [sp1, sp3]
      rw [sliceBytes_ascii hA (by omega) hb1len]
      exact ⟨_, rfl⟩
  · rw [if_neg hdot]
    dsimp only [Pure.pure, Except.pure, Bind.bind, Except.bind]
    rw [sp1, sp3]
    rw [sliceBytes_ascii hA (by omega) hb1len]
    dsimp only
    obtain ⟨v, hv⟩ := parseF64_digits hAne hAdig
    rw [hv]
    dsimp only
    rw [Scanner.add_token_literal]
    rw [sp1, sp3]
    rw [sliceBytes_ascii hA (by omega) hb1len]
    exact ⟨_, rfl⟩

/-- On ASCII text an in-bounds `add_token_literal` succeeds. -/
lemma Scanner.add_token_literal_ascii {s : Scanner} {ty : TokenType}
    {lit : Object} (hA : AllAscii s.source) (hab : s.start ≤ s.current)
    (hb : s.current ≤ byteLen s.source) :
    ∃ s', s.add_token_literal ty lit = .ok s' := by
  have hlen : byteLen s.source = s.source.length := byteLen_ascii hA
  rw [Scanner.add_token_literal]
  rw [sliceBytes_ascii hA hab (by omega)]
  exact ⟨_, rfl⟩

/-- `match_char` keeps the cursor within the byte length. -/
lemma Scanner.match_char_bound {s : Scanner} {e : Char}
    (h : s.current ≤ byteLen s.source) :
    (s.match_char e).1.current ≤ byteLen s.source := by
  rw [Scanner.match_char]
  split
  · exact h
  · rename_i hend
    simp only [Scanner.is_at_end, decide_eq_true_eq] at hend
    split
    · split
      · exact h
      · show s.current + 1 ≤ byteLen s.source
        omega
    · show s.current + 1 ≤ byteLen s.source
      omega

/-- On ASCII text `scan_token` from a loop-valid state (`start` at the
cursor, cursor strictly inside the source) never panics. -/
lemma Scanner.scan_token_ascii {st : Scanner} (hA : AllAscii st.source)
    (hss : st.start = st.current) (hlt : st.current < byteLen st.source) :
    ∃ s', Scanner.scan_token st = .ok s' := by
  rcases hs : Scanner.scan_token st with e | s'
  · exfalso
    have hlen : byteLen st.source = st.source.length := byteLen_ascii hA
    rw [Scanner.scan_token] at hs
    dsimp only [Scanner.advance] at hs
    split at hs
    · rename_i s2 heq
      injection heq with h1 h2
      rw [List.get?_eq_get (show st.current < st.source.length by omega)] at h2
      exact Option.noConfusion h2
    · rename_i s2 c heq
      injection heq with h1 h2
      subst h1
      split at hs
      -- the ten plain punctuation tokens
      iterate 10
        · obtain ⟨s3, h3⟩ := Scanner.add_token_literal_ascii
            (show AllAscii ({ st with current := st.current + 1 } : Scanner).source
              from hA)
            (show st.start ≤ st.current + 1 by omega)
            (show st.current + 1 ≤ byteLen st.source by omega)
          rw [Scanner.add_token] at hs
          rw [h3] at hs
          exact Except.noConfusion hs
      -- the four one-or-two-character operators
      iterate 4
        · obtain ⟨m1, m2, m3, m4, m5, m6, m7⟩ := Scanner.match_char_spec
            ⟨st.source, st.tokens, st.start, st.current + 1, st.line, st.diags⟩ '='
          have hA2 : AllAscii (Scanner.match_char
              ⟨st.source, st.tokens, st.start, st.current + 1, st.line, st.diags⟩
              '=').1.source := by
            rw [show (Scanner.match_char
              ⟨st.source, st.tokens, st.start, st.current + 1, st.line, st.diags⟩
              '=').1.source = st.source from m1]
            exact hA
          obtain ⟨s3, h3⟩ := Scanner.add_token_literal_ascii hA2
            (by rw [show (Scanner.match_char
                ⟨st.source, st.tokens, st.start, st.current + 1, st.line, st.diags⟩
                '=').1.start = st.start from m3]
                have m6b : st.current + 1 ≤ (Scanner.match_char
                  ⟨st.source, st.tokens, st.start, st.current + 1, st.line,
                    st.diags⟩ '=').1.current := m6
                omega)
            (by rw [show (Scanner.match_char
                ⟨st.source, st.tokens, st.start, st.current + 1, st.line, st.diags⟩
                '=').1.source = st.source from m1]
                exact Scanner.match_char_bound
                  (show st.current + 1 ≤ byteLen st.source by omega))
          rw [Scanner.add_token] at hs
          rw [h3] at hs
          exact Except.noConfusion hs
      -- the / arm
      · obtain ⟨m1, m2, m3, m4, m5, m6, m7⟩ := Scanner.match_char_spec
          ⟨st.source, st.tokens, st.start, st.current + 1, st.line, st.diags⟩ '/'
        have hA2 : AllAscii (Scanner.match_char
            ⟨st.source, st.tokens, st.start, st.current + 1, st.line, st.diags⟩
            '/').1.source := by
          rw [show (Scanner.match_char
            ⟨st.source, st.tokens, st.start, st.current + 1, st.line, st.diags⟩
            '/').1.source = st.source from m1]
          exact hA
        have hbnd : (Scanner.match_char
            ⟨st.source, st.tokens, st.start, st.current + 1, st.line, st.diags⟩
            '/').1.current ≤ byteLen (Scanner.match_char
            ⟨st.source, st.tokens, st.start, st.current + 1, st.line, st.diags⟩
            '/').1.source := by
          rw [show (Scanner.match_char
            ⟨st.source, st.tokens, st.start, st.current + 1, st.line, st.diags⟩
            '/').1.source = st.source from m1]
          exact Scanner.match_char_bound
            (show st.current + 1 ≤ byteLen st.source by omega)
        split at hs
        · obtain ⟨s3, h3, _⟩ := @Scanner.commentLoop_ascii
            (byteLen (Scanner.match_char
              ⟨st.source, st.tokens, st.start, st.current + 1, st.line, st.diags⟩
              '/').1.source) _ hA2 hbnd (by omega)
          rw [h3] at hs
          exact Except.noConfusion hs
        · obtain ⟨s3, h3⟩ := Scanner.add_token_literal_ascii hA2
            (by rw [show (Scanner.match_char
                ⟨st.source, st.tokens, st.start, st.current + 1, st.line, st.diags⟩
                '/').1.start = st.start from m3]
                have m6b : st.current + 1 ≤ (Scanner.match_char
                  ⟨st.source, st.tokens, st.start, st.current + 1, st.line,
                    st.diags⟩ '/').1.current := m6
                omega)
            hbnd
          rw [Scanner.add_token] at hs
          rw [h3] at hs
          exact Except.noConfusion hs
      -- whitespace
      iterate 4
        · exact Except.noConfusion hs
      -- string literal
      · obtain ⟨s3, h3⟩ := Scanner.string_ascii
          (show AllAscii ({ st with current := st.current + 1 } : Scanner).source
            from hA)
          (show st.current + 1 ≤ byteLen st.source by omega)
          (show st.current + 1 = st.start + 1 by omega)
        rw [h3] at hs
        exact Except.noConfusion hs
      -- digit, identifier, or diagnostic
      · split at hs
        · rename_i hdig
          obtain ⟨s3, h3⟩ := Scanner.number_ascii
            (show AllAscii ({ st with current := st.current + 1 } : Scanner).source
              from hA)
            (show st.current + 1 ≤ byteLen st.source by omega)
            (show st.current + 1 = st.start + 1 by omega)
            (show st.source.get? st.start = some c by rw [hss]; exact h2)
            hdig
          rw [h3] at hs
          exact Except.noConfusion hs
        · split at hs
          · obtain ⟨s3, h3⟩ := Scanner.identifier_ascii
              (show AllAscii ({ st with current := st.current + 1 } : Scanner).source
                from hA)
              (show st.current + 1 ≤ byteLen st.source by omega)
              (show st.current + 1 = st.start + 1 by omega)
            rw [h3] at hs
            exact Except.noConfusion hs
          · exact Except.noConfusion hs
  · exact ⟨s', rfl⟩

/-- On ASCII sources the scan loop never panics given byte-length fuel. -/
lemma Scanner.scanLoop_ascii {fuel : Nat} {s : Scanner} (hA : AllAscii s.source)
    (hf : byteLen s.source ≤ fuel + s.current) :
    ∃ s', Scanner.scanLoop fuel s = .ok s' := by
  induction fuel generalizing s with
  | zero =>
    rw [Scanner.scanLoop]
    split
    · exact ⟨_, rfl⟩
    · rename_i hend
      simp only [Scanner.is_at_end, decide_eq_true_eq] at hend
      omega
  | succ fuel ih =>
    rw [Scanner.scanLoop]
    split
    · exact ⟨_, rfl⟩
    · rename_i hend
      simp only [Scanner.is_at_end, decide_eq_true_eq] at hend
      obtain ⟨s2, h2⟩ := @Scanner.scan_token_ascii { s with start := s.current }
        hA rfl (show s.current < byteLen s.source by omega)
      rw [h2]
      obtain ⟨a1, a2, a3, a4, a5⟩ := Scanner.scan_token_spec h2
      have hA2 : AllAscii s2.source := by
        rw [show s2.source = s.source from a1]
        exact hA
      have harith : byteLen s2.source ≤ fuel + s2.current := by
        have e1 : byteLen s2.source = byteLen s.source := by
          rw [show s2.source = s.source from a1]
        have e2 : s.current < s2.current := a3
        omega
      exact ih hA2 harith

/-- Scan-loop invariant: tokens are append-only, never `Eof`, stamped with
lines between the loop-entry and loop-exit line counters, and in
non-decreasing line order. -/
lemma Scanner.scanLoop_spec {fuel : Nat} {s s' : Scanner}
    (h : Scanner.scanLoop fuel s = .ok s') :
    s.line ≤ s'.line ∧
    ∃ new, s'.tokens = s.tokens ++ new ∧
      (∀ t ∈ new, t.type_ ≠ TokenType.Eof ∧ s.line ≤ t.line ∧ t.line ≤ s'.line) ∧
      List.Chain' (fun a b => a.line ≤ b.line) new := by
  induction fuel generalizing s with
  | zero =>
    rw [Scanner.scanLoop] at h
    split at h
    · cases h
      exact ⟨Nat.le_refl _, [], by simp, by simp, List.chain'_nil⟩
    · rcases hT : ({ s with start := s.current } : Scanner).scan_token with e | s2
      · rw [hT] at h
        exact Except.noConfusion h
      · rw [hT] at h
        exact Except.noConfusion h
  | succ fuel ih =>
    rw [Scanner.scanLoop] at h
    split at h
    · cases h
      exact ⟨Nat.le_refl _, [], by simp, by simp, List.chain'_nil⟩
    · rcases hT : ({ s with start := s.current } : Scanner).scan_token with e | s2
      · rw [hT] at h
        exact Except.noConfusion h
      · rw [hT] at h
        obtain ⟨b1, b2, b3, b4, btoks⟩ := Scanner.scan_token_spec hT
        obtain ⟨ihl, new2, ihnew, ihprops, ihchain⟩ := ih h
        have hsl : s.line ≤ s2.line := b4
        rcases btoks with hsame | ⟨t0, ht0, hty0, hl0a, hl0b⟩
        · have hsame2 : s2.tokens = s.tokens := hsame
          refine ⟨by omega, new2, by rw [ihnew, hsame2], ?_, ihchain⟩
          intro t ht
          obtain ⟨x1, x2, x3⟩ := ihprops t ht
          exact ⟨x1, by omega, x3⟩
        · have ht02 : s2.tokens = s.tokens ++ [t0] := ht0
          have hl0a2 : s.line ≤ t0.line := hl0a
          refine ⟨by omega, t0 :: new2, ?_, ?_, ?_⟩
          · rw [ihnew, ht02]
            simp
          · intro t ht
            rcases List.mem_cons.mp ht with rfl | ht2
            · exact ⟨hty0, hl0a2, by omega⟩
            · obtain ⟨x1, x2, x3⟩ := ihprops t ht2
              exact ⟨x1, by omega, x3⟩
          · rw [List.chain'_cons']
            refine ⟨?_, ihchain⟩
            intro y hy
            have hymem : y ∈ new2 := List.mem_of_mem_head? hy
            obtain ⟨_, hy2, _⟩ := ihprops y hymem
            omega

set_option maxHeartbeats 4000000 in
/-- C2 (behavior of the code at the failing input): scanning `1\n2` gives
every token — including the token for `2`, which sits after the newline —
line number 1.  The newline does not increment the line counter:
`scan_token` lumps `'\n'` together with the ignored whitespace, and only
`string` ever increments `line`. -/
theorem newline_does_not_increment_line :
    (scan "1\n2").map (fun toks => toks.map (fun t => (t.lexeme, t.line)))
      = .ok [("1", 1), ("2", 1), ("", 1)] := by decide

/-- C3 counterexample: scanning the UTF-8 source `é1` panics (an `unwrap`
on `None`) instead of completing: the accented character makes the byte
length 3 but the character count 2, and `peek` runs off the characters
while the byte cursor is still in bounds. -/
theorem scan_panics_on_non_ascii :
    (scan (String.mk ['é', '1'])).toOption = none := rfl

/-- C3 (amended): on every ASCII source text `scan_tokens` runs to
completion and returns a token sequence, with malformed input (such as the
unrecognized character `@`) merely reported as a diagnostic and
contributing no token; on non-ASCII input the scanner can panic because it
uses byte lengths and character counts interchangeably. -/
theorem scan_total_on_ascii :
    (∀ source : String, AllAscii source.data → ∃ toks, scan source = .ok toks)
    ∧ scanDiags "@" = .ok ([Token.new TokenType.Eof "" Object.Nil 1],
        ["Unexpected character: @", "char value 64"]) := by
  constructor
  · intro source hasc
    obtain ⟨sF, hL⟩ := @Scanner.scanLoop_ascii
      (byteLen (Scanner.new source).source) (Scanner.new source) hasc (by omega)
    rw [scan, Scanner.scan_tokens]
    dsimp only [Bind.bind, Except.bind]
    rw [hL]
    dsimp only [Bind.bind, Except.bind, Pure.pure, Except.pure]
    exact ⟨_, rfl⟩
  · decide

/-- C3 amended-claim witness: a concrete ASCII source, with its ASCII-ness
checked by evaluation. -/
theorem scan_total_on_ascii_witness : ∃ toks, scan "print 1;" = .ok toks :=
  scan_total_on_ascii.1 "print 1;" (by decide)

/-- C4 counterexample: scanning the source `"é` (an open quote followed by
a non-ASCII character) panics rather than returning any token sequence, so
no `Eof`-terminated sequence is produced for it. -/
theorem scan_no_eof_on_panic :
    (scan (String.mk ['"', 'é'])).toOption = none := rfl

/-- C4 (amended): whenever `scan_tokens` returns a token sequence — which
it does for every ASCII source, though it may panic on non-ASCII input —
the last element is an `Eof` token and no other element is an `Eof` token;
for the empty source the result is exactly the one `Eof` token at line 1. -/
theorem scan_eof_terminated :
    (∀ (source : String) (toks : List Token), scan source = .ok toks →
      ∃ pre t, toks = pre ++ [t] ∧ t.type_ = TokenType.Eof ∧
        ∀ u ∈ pre, u.type_ ≠ TokenType.Eof)
    ∧ scan "" = .ok [Token.new TokenType.Eof "" Object.Nil 1] := by
  constructor
  · intro source toks h
    rw [scan, Scanner.scan_tokens] at h
    dsimp only [Bind.bind, Except.bind] at h
    rcases hL : Scanner.scanLoop (byteLen (Scanner.new source).source)
        (Scanner.new source) with e | sF
    · rw [hL] at h
      exact Except.noConfusion h
    · rw [hL] at h
      dsimp only [Bind.bind, Except.bind, Pure.pure, Except.pure] at h
      obtain ⟨hlF, new, hnew, hprops, hchain⟩ := Scanner.scanLoop_spec hL
      have htoks : toks
          = sF.tokens ++ [Token.new TokenType.Eof "" Object.Nil sF.line] :=
        (Except.ok.inj h).symm
      have hnew2 : sF.tokens = new := by
        have h0 : sF.tokens = ([] : List Token) ++ new := hnew
        simpa using h0
      refine ⟨sF.tokens, Token.new TokenType.Eof "" Object.Nil sF.line,
        htoks, rfl, ?_⟩
      intro u hu
      rw [hnew2] at hu
      exact (hprops u hu).1
  · rfl

/-- C4 amended-claim witness: the empty source, whose scan the second
conjunct of the theorem computes. -/
theorem scan_eof_terminated_witness :
    ∃ pre t, [Token.new TokenType.Eof "" Object.Nil 1] = pre ++ [t]
      ∧ t.type_ = TokenType.Eof ∧ ∀ u ∈ pre, u.type_ ≠ TokenType.Eof :=
  scan_eof_terminated.1 "" [Token.new TokenType.Eof "" Object.Nil 1]
    scan_eof_terminated.2

/-- C10: in every token sequence `scan_tokens` returns, the line fields are
non-decreasing in sequence order: the scanner's line counter is only ever
incremented, each token is stamped with a line between the counter's value
before and after producing it, and the final `Eof` carries the final
value. -/
theorem scan_lines_monotone :
    ∀ (source : String) (toks : List Token), scan source = .ok toks →
      List.Chain' (fun a b => a.line ≤ b.line) toks := by
  intro source toks h
  rw [scan, Scanner.scan_tokens] at h
  dsimp only [Bind.bind, Except.bind] at h
  rcases hL : Scanner.scanLoop (byteLen (Scanner.new source).source)
      (Scanner.new source) with e | sF
  · rw [hL] at h
    exact Except.noConfusion h
  · rw [hL] at h
    dsimp only [Bind.bind, Except.bind, Pure.pure, Except.pure] at h
    obtain ⟨hlF, new, hnew, hprops, hchain⟩ := Scanner.scanLoop_spec hL
    have htoks : toks
        = sF.tokens ++ [Token.new TokenType.Eof "" Object.Nil sF.line] :=
      (Except.ok.inj h).symm
    have hnew2 : sF.tokens = new := by
      have h0 : sF.tokens = ([] : List Token) ++ new := hnew
      simpa using h0
    rw [htoks, hnew2]
    rw [List.chain'_append]
    refine ⟨hchain, List.chain'_singleton _, ?_⟩
    intro x hx y hy
    have hxmem : x ∈ new := List.mem_of_mem_getLast? hx
    have hyeq : Token.new TokenType.Eof "" Object.Nil sF.line = y := by
      simpa using hy
    obtain ⟨_, _, hx3⟩ := hprops x hxmem
    rw [← hyeq]
    exact hx3

set_option maxHeartbeats 4000000 in
/-- C10 witness: the scan of the two-line string literal source evaluates
concretely — the `string` loop increments the line counter past the
embedded newline, so the tokens carry lines 2, 2 — and its token lines are
non-decreasing. -/
theorem scan_lines_monotone_witness :
    List.Chain' (fun a b => a.line ≤ b.line)
      [Token.new TokenType.String "\"x\ny\"" (Object.String "x\ny") 2,
       Token.new TokenType.Eof "" Object.Nil 2] :=
  scan_lines_monotone (String.mk ['"', 'x', '\n', 'y', '"']) _ (by decide)
